import Mathlib

/-!
Verification of the pattern-based source analysis engine of this repository
(`src/skills/functions/scripts/analyze-functions.js` and
`src/skills/dom-apis/scripts/dom-analyzer.js`).

Buffers are modelled as `List Char`.  Each JavaScript regular expression used
by the scripts is embedded as an executable matcher on `List Char`; the
matcher is the hand-derived deterministic form of the regex's backtracking
behaviour (the derivations are documented at each definition).  JavaScript
strings are UTF-16, here modelled as unicode scalar sequences; the `\s`
class is modelled by its ASCII members, which is exact on every input handled
in the theorems below.
-/

namespace S2P

/-- ASCII members of the JavaScript regex class `\s`. -/
def isSpace (c : Char) : Bool :=
  c = ' ' || c = '\t' || c = '\n' || c = '\r' || c = '\x0b' || c = '\x0c'

/-- The JavaScript regex class `\w` : letters, digits and underscore. -/
def isWordChar (c : Char) : Bool :=
  ('a' ≤ c && c ≤ 'z') || ('A' ≤ c && c ≤ 'Z') || ('0' ≤ c && c ≤ '9') || c = '_'

/-- The class `[a-z]` under the `i` flag: ASCII letters. -/
def isAsciiLetter (c : Char) : Bool :=
  ('a' ≤ c && c ≤ 'z') || ('A' ≤ c && c ≤ 'Z')

/-- Character of `s` at index `i`, if in bounds. -/
def charAt (s : List Char) (i : Nat) : Option Char := s.get? i

/-- The literal word `w` occurs in `s` starting at index `i`
(`i + w.length ≤ s.length` is implied). -/
def litAt (s : List Char) (i : Nat) : List Char → Bool
  | [] => true
  | c :: cs => charAt s i = some c && litAt s (i + 1) cs

/-- Upward scan with explicit fuel (structural recursion, so that the kernel
can evaluate it); `firstPos` below supplies sufficient fuel. -/
def firstPosF (p : Nat → Bool) (bound : Nat) : Nat → Nat → Option Nat
  | 0, _ => none
  | fuel + 1, i =>
    if i < bound then (if p i then some i else firstPosF p bound fuel (i + 1))
    else none

/-- First index `j` with `i ≤ j < bound` satisfying `p`, scanning upward. -/
def firstPos (p : Nat → Bool) (bound i : Nat) : Option Nat :=
  firstPosF p bound (bound - i) i

/-- Last index `j` with `lo ≤ j < hi` satisfying `p`, scanning downward. -/
def lastPos (p : Nat → Bool) (lo : Nat) : Nat → Option Nat
  | 0 => none
  | hi + 1 =>
    if lo ≤ hi then (if p hi then some hi else lastPos p lo hi) else none

/-- Index just past a maximal run of characters satisfying `q`, starting at `i`. -/
def runEnd (q : Char → Bool) (s : List Char) (i : Nat) : Nat :=
  match firstPos (fun j => !((charAt s j).any q)) s.length i with
  | some j => j
  | none => s.length

/-- Greedy `\s*`: index just past the whitespace run starting at `i`. -/
def skipSpaces (s : List Char) (i : Nat) : Nat := runEnd isSpace s i

/-- First index `j ≥ i` holding character `c`, if any. -/
def indexOfFrom (s : List Char) (c : Char) (i : Nat) : Option Nat :=
  firstPos (fun j => charAt s j = some c) s.length i

/-- `(s.drop i).take n` : the substring of `s` at offset `i` of length `n`. -/
def slice (s : List Char) (i n : Nat) : List Char := (s.drop i).take n

/-- Number of newline characters in `s` (for 1-based line numbers). -/
def countNl (s : List Char) : Nat := s.count '\n'

/-- JavaScript `content.split('\n')` on a character list. -/
def splitNl : List Char → List (List Char)
  | [] => [[]]
  | c :: cs =>
    if c = '\n' then [] :: splitNl cs
    else
      match splitNl cs with
      | [] => [[c]]
      | l :: ls => (c :: l) :: ls

/-- The `n`-th (1-based) newline-delimited line of `s`. -/
def nthLine (s : List Char) (n : Nat) : List Char := (splitNl s).getD (n - 1) []

/-- 1-based line of offset `i` in `s` : `1 + countNl (take i s)`, which is the
JavaScript `content.substring(0, i).split('\n').length`. -/
def lineOf (s : List Char) (i : Nat) : Nat := 1 + countNl (s.take i)

/-- `needle` occurs as a contiguous substring of `hay`
(JavaScript `String.prototype.includes`). -/
def containsSub (hay needle : List Char) : Bool :=
  (firstPos (fun j => litAt hay j needle) (hay.length + 1) 0).isSome

/-! ### Non-overlapping global scan

`count m s` is the number of matches found by a JavaScript global regex whose
per-position behaviour is `m` : repeatedly find the leftmost match, then
continue from its end (advancing by one on a hypothetical empty match, as the
JavaScript match loop does).  The fuel argument makes the recursion
structural; `s.length` steps always suffice because every step advances the
position by at least one. -/

/-- A deterministic matcher: at position `i` of `s`, either no match or a
match consuming the returned number of characters. -/
abbrev SMatcher := List Char → Nat → Option Nat

/-- Fueled non-overlapping scan counting matches of `m` from position `i`. -/
def countAux (m : SMatcher) (s : List Char) : Nat → Nat → Nat
  | 0, _ => 0
  | fuel + 1, i =>
    if i < s.length then
      match m s i with
      | some L => 1 + countAux m s fuel (i + max L 1)
      | none => countAux m s fuel (i + 1)
    else 0

/-- `(content.match(pattern) || []).length` for a global pattern whose
matcher is `m`. -/
def count (m : SMatcher) (s : List Char) : Nat := countAux m s s.length 0

/-- `\b` immediately before a word character at position `i` : start of
input, or previous character not in `\w`. -/
def prevNonWord (s : List Char) (i : Nat) : Bool :=
  match i with
  | 0 => true
  | k + 1 => !((charAt s k).any isWordChar)

def kwIf : List Char := "if".toList
def kwFor : List Char := "for".toList
def kwWhile : List Char := "while".toList
def kwSwitch : List Char := "switch".toList
def kwCase : List Char := "case".toList
def kwCatch : List Char := "catch".toList
def kwElse : List Char := "else".toList

/-- Matcher of `\b<kw>\s*\(` (the shape of the `if` / `for` / `while` /
`switch` / `catch` decision-point patterns of `calculateComplexity`): word
boundary, the keyword, greedy whitespace, then a literal `(`.  The greedy
`\s*` cannot backtrack usefully because `(` is not a whitespace character,
so this deterministic form is the regex's exact behaviour. -/
def matchKwParen (kw : List Char) : SMatcher := fun s i =>
  if prevNonWord s i && litAt s i kw then
    let j := skipSpaces s (i + kw.length)
    if charAt s j = some '(' then some (j + 1 - i) else none
  else none

/-- Matcher of `\belse\s+if\s*\(` : word boundary, `else`, at least one
whitespace character, `if`, greedy whitespace, `(`.  Deterministic for the
same reason as `matchKwParen`. -/
def matchElseIf : SMatcher := fun s i =>
  if prevNonWord s i && litAt s i kwElse then
    let j1 := skipSpaces s (i + 4)
    if i + 4 < j1 && litAt s j1 kwIf then
      let j3 := skipSpaces s (j1 + 2)
      if charAt s j3 = some '(' then some (j3 + 1 - i) else none
    else none
  else none

/-- Matcher of `\bcase\s+` : word boundary, `case`, at least one whitespace
character, consuming the whole greedy whitespace run. -/
def matchCaseKw : SMatcher := fun s i =>
  if prevNonWord s i && litAt s i kwCase then
    let j := skipSpaces s (i + 4)
    if i + 4 < j then some (j - i) else none
  else none

/-- Matcher of the ternary pattern `\?\s*[^:]+\s*:` .  Since `[^:]` cannot
cross a colon, the backtracking regex matches at a `?` exactly when the first
colon strictly after it leaves at least one intervening character (the
intervening characters are then split as `\s* [^:]+ \s*` in some way), and
the match always ends at that first colon. -/
def matchTernary : SMatcher := fun s i =>
  if charAt s i = some '?' then
    match indexOfFrom s ':' (i + 1) with
    | some k => if i + 2 ≤ k then some (k + 1 - i) else none
    | none => none
  else none

/-- Matcher of a doubled literal character: the patterns `&&` and `\|\|` . -/
def matchLit2 (c : Char) : SMatcher := fun s i =>
  if charAt s i = some c && charAt s (i + 1) = some c then some 2 else none

/-- The `complexityPatterns` array of `calculateComplexity`, in source
order: `\bif\s*\(`, `\belse\s+if\s*\(`, `\bfor\s*\(`, `\bwhile\s*\(`,
`\bswitch\s*\(`, `\bcase\s+`, `\bcatch\s*\(`, the ternary pattern, `&&`,
`\|\|`. -/
def decisionPatterns : List SMatcher :=
  [matchKwParen kwIf, matchElseIf, matchKwParen kwFor, matchKwParen kwWhile,
   matchKwParen kwSwitch, matchCaseKw, matchKwParen kwCatch, matchTernary,
   matchLit2 '&', matchLit2 '|']

/-- `calculateComplexity` of `analyze-functions.js` : start from a base
complexity of 1 and add the global match count of every decision-point
pattern. -/
def calculateComplexity (s : List Char) : Nat :=
  decisionPatterns.foldl (fun acc m => acc + count m s) 1

/-- Total number of decision-point occurrences over all ten sub-patterns. -/
def totalOccurrences (s : List Char) : Nat :=
  (decisionPatterns.map (fun m => count m s)).sum

/-! ### The nesting-depth estimator (`HTMLAnalyzer.estimateDepth`)

The loop of `estimateDepth` never uses the three regexes declared at its top
(`openTag`, `closeTag`, `selfClosing` are dead code); it walks the input with
`indexOf('<')` / `indexOf('>')` and classifies each delimited tag with string
operations, which is what is modelled here. -/

/-- The mutable state of the `estimateDepth` loop.  `increments` counts how
often the `depth++` branch ran (it is not part of the source state, but is a
ghost counter that changes no behaviour). -/
structure DepthState where
  depth : Int
  maxDepth : Int
  increments : Nat
deriving DecidableEq

/-- The `voidElements` array of `estimateDepth`. -/
def voidElements : List (List Char) :=
  ["area".toList, "base".toList, "br".toList, "col".toList, "embed".toList,
   "hr".toList, "img".toList, "input".toList, "link".toList, "meta".toList,
   "param".toList, "source".toList, "track".toList, "wbr".toList]

def ltSlash : List Char := "</".toList
def ltBang : List Char := "<!".toList
def ltQuest : List Char := "<?".toList
def slashGt : List Char := "/>".toList

/-- `tag.endsWith('/>')`. -/
def endsSlashGt (tag : List Char) : Bool :=
  2 ≤ tag.length && litAt tag (tag.length - 2) slashGt

/-- `tag.match(/<([a-z]+)/i)?.[1]?.toLowerCase()` : the lowercased letter run
after the first `<` that is directly followed by an ASCII letter. -/
def tagNameOf (tag : List Char) : Option (List Char) :=
  match firstPos
      (fun j => charAt tag j = some '<' && (charAt tag (j + 1)).any isAsciiLetter)
      tag.length 0 with
  | some j => some ((slice tag (j + 1) (runEnd isAsciiLetter tag (j + 1) - (j + 1))).map Char.toLower)
  | none => none

/-- One iteration body of the `estimateDepth` loop, classifying one
`<...>`-delimited tag: a closing tag decrements the depth (with no floor), a
non-self-closing, non-declaration, non-processing-instruction tag whose name
is not a void element increments it and updates the maximum. -/
def stepTag (tag : List Char) (st : DepthState) : DepthState :=
  if litAt tag 0 ltSlash then
    { st with depth := st.depth - 1 }
  else if !endsSlashGt tag && !litAt tag 0 ltBang && !litAt tag 0 ltQuest then
    match tagNameOf tag with
    | some name =>
      if voidElements.contains name then st
      else
        { depth := st.depth + 1,
          maxDepth := if st.maxDepth < st.depth + 1 then st.depth + 1 else st.maxDepth,
          increments := st.increments + 1 }
    | none => st
  else st

/-- The `estimateDepth` scan: find the next `<`, the next `>` at or after it,
classify the delimited tag, continue after the `>`.  Each iteration advances
the position by at least two, so `s.length + 1` steps of fuel always
suffice. -/
def depthLoopF (s : List Char) : Nat → Nat → DepthState → DepthState
  | 0, _, st => st
  | fuel + 1, pos, st =>
    match indexOfFrom s '<' pos with
    | none => st
    | some o =>
      match indexOfFrom s '>' o with
      | none => st
      | some e => depthLoopF s fuel (e + 1) (stepTag (slice s o (e + 1 - o)) st)

/-- The final loop state of `estimateDepth` on `s`. -/
def estimateDepthScan (s : List Char) : DepthState :=
  depthLoopF s (s.length + 1) 0 ⟨0, 0, 0⟩

/-- `stats.maxDepth` as stored by `estimateDepth`. -/
def estimateDepth (s : List Char) : Int := (estimateDepthScan s).maxDepth

/-! ### Matchers of the `PATTERNS` registry used by `analyzeFile`

Each matcher is the deterministic form of the corresponding regex.  All the
alternations in these regexes have arms with pairwise distinct, non-prefix
first tokens, and every greedy star is followed by a token disjoint from the
starred class, so the only true backtracking is in `nestedCallbacks`,
`thisInCallback` and `defaultParams`, where a greedy `[^x]*` is followed by a
literal: there the engine commits to the rightmost viable continuation, which
is modelled by a downward search (`lastPos`).

A match records its consumed length and the captured groups the script
reads (`match[1]`, `match[2]`, `match[3]`). -/

structure FMatch where
  len : Nat
  g1 : Option (List Char) := none
  g2 : Option (List Char) := none
  g3 : Option (List Char) := none
deriving DecidableEq

abbrev FMatcher := List Char → Nat → Option FMatch

/-- Fueled non-overlapping scan collecting all matches with their start
offsets (the semantics of `String.prototype.matchAll` for a global regex
starting at `lastIndex = 0`). -/
def scanAllAux (m : FMatcher) (s : List Char) : Nat → Nat → List (Nat × FMatch)
  | 0, _ => []
  | fuel + 1, i =>
    if i < s.length then
      match m s i with
      | some mt => (i, mt) :: scanAllAux m s fuel (i + max mt.len 1)
      | none => scanAllAux m s fuel (i + 1)
    else []

def scanAll (m : FMatcher) (s : List Char) : List (Nat × FMatch) :=
  scanAllAux m s s.length 0

/-- `(content.match(pattern) || []).length` for a global full-info matcher. -/
def countF (m : FMatcher) (s : List Char) : Nat := (scanAll m s).length

/-- Leftmost match at a position `≥ start` (the semantics of `exec` / `test`
on a global regex whose `lastIndex` is `start`). -/
def firstMatchFromAux (m : FMatcher) (s : List Char) : Nat → Nat → Option (Nat × FMatch)
  | 0, _ => none
  | fuel + 1, i =>
    if i < s.length then
      match m s i with
      | some mt => some (i, mt)
      | none => firstMatchFromAux m s fuel (i + 1)
    else none

def firstMatchFrom (m : FMatcher) (s : List Char) (start : Nat) : Option (Nat × FMatch) :=
  firstMatchFromAux m s (s.length - start) start

/-- First member of `ws` that occurs literally at position `i` (an ordered
regex alternation of literal words; none of the words used below is a prefix
of another, so order never matters beyond the source's). -/
def firstLit (s : List Char) (i : Nat) : List (List Char) → Option (List Char)
  | [] => none
  | w :: ws => if litAt s i w then some w else firstLit s i ws

def lbrace : Char := '\x7b'
def rbrace : Char := '\x7d'
def kwFunction : List Char := "function".toList
def kwConst : List Char := "const".toList
def kwLet : List Char := "let".toList
def kwVar : List Char := "var".toList
def kwAsync : List Char := "async".toList
def kwReturn : List Char := "return".toList
def arrowTok : List Char := "=>".toList
def declKws : List (List Char) := [kwConst, kwLet, kwVar]

/-- `functionDeclaration: /function\s+(\w+)\s*\(([^)]*)\)\s*\{/g` . -/
def matchFunctionDeclaration : FMatcher := fun s i =>
  if litAt s i kwFunction then
    let j1 := skipSpaces s (i + 8)
    if i + 8 < j1 then
      let j2 := runEnd isWordChar s j1
      if j1 < j2 then
        let j3 := skipSpaces s j2
        if charAt s j3 = some '(' then
          match indexOfFrom s ')' (j3 + 1) with
          | some j4 =>
            let j5 := skipSpaces s (j4 + 1)
            if charAt s j5 = some lbrace then
              some ⟨j5 + 1 - i, some (slice s j1 (j2 - j1)),
                    some (slice s (j3 + 1) (j4 - (j3 + 1))), none⟩
            else none
          | none => none
        else none
      else none
    else none
  else none

/-- `functionExpression:
/(?:const|let|var)\s+(\w+)\s*=\s*function\s*(?:\w+)?\s*\(([^)]*)\)\s*\{/g` . -/
def matchFunctionExpression : FMatcher := fun s i =>
  match firstLit s i declKws with
  | none => none
  | some kw =>
    let j1 := skipSpaces s (i + kw.length)
    if i + kw.length < j1 then
      let j2 := runEnd isWordChar s j1
      if j1 < j2 then
        let j3 := skipSpaces s j2
        if charAt s j3 = some '=' then
          let j4 := skipSpaces s (j3 + 1)
          if litAt s j4 kwFunction then
            let j5 := skipSpaces s (j4 + 8)
            let j6 := runEnd isWordChar s j5
            let j7 := skipSpaces s j6
            if charAt s j7 = some '(' then
              match indexOfFrom s ')' (j7 + 1) with
              | some j8 =>
                let j9 := skipSpaces s (j8 + 1)
                if charAt s j9 = some lbrace then
                  some ⟨j9 + 1 - i, some (slice s j1 (j2 - j1)),
                        some (slice s (j7 + 1) (j8 - (j7 + 1))), none⟩
                else none
              | none => none
            else none
          else none
        else none
      else none
    else none

/-- `arrowFunction: /(?:const|let|var)\s+(\w+)\s*=\s*(?:\(([^)]*)\)|(\w+))\s*=>/g` . -/
def matchArrowFunction : FMatcher := fun s i =>
  match firstLit s i declKws with
  | none => none
  | some kw =>
    let j1 := skipSpaces s (i + kw.length)
    if i + kw.length < j1 then
      let j2 := runEnd isWordChar s j1
      if j1 < j2 then
        let j3 := skipSpaces s j2
        if charAt s j3 = some '=' then
          let j4 := skipSpaces s (j3 + 1)
          if charAt s j4 = some '(' then
            match indexOfFrom s ')' (j4 + 1) with
            | some j5 =>
              let j6 := skipSpaces s (j5 + 1)
              if litAt s j6 arrowTok then
                some ⟨j6 + 2 - i, some (slice s j1 (j2 - j1)),
                      some (slice s (j4 + 1) (j5 - (j4 + 1))), none⟩
              else none
            | none => none
          else
            let j5 := runEnd isWordChar s j4
            if j4 < j5 then
              let j6 := skipSpaces s j5
              if litAt s j6 arrowTok then
                some ⟨j6 + 2 - i, some (slice s j1 (j2 - j1)), none,
                      some (slice s j4 (j5 - j4))⟩
              else none
            else none
        else none
      else none
    else none

/-- `asyncFunction: /async\s+function\s+(\w+)/g` . -/
def matchAsyncFunction : FMatcher := fun s i =>
  if litAt s i kwAsync then
    let j0 := skipSpaces s (i + 5)
    if i + 5 < j0 && litAt s j0 kwFunction then
      let j1 := skipSpaces s (j0 + 8)
      if j0 + 8 < j1 then
        let j2 := runEnd isWordChar s j1
        if j1 < j2 then some ⟨j2 - i, some (slice s j1 (j2 - j1)), none, none⟩
        else none
      else none
    else none
  else none

/-- `asyncArrow: /(?:const|let|var)\s+(\w+)\s*=\s*async\s*(?:\(([^)]*)\)|(\w+))\s*=>/g` . -/
def matchAsyncArrow : FMatcher := fun s i =>
  match firstLit s i declKws with
  | none => none
  | some kw =>
    let j1 := skipSpaces s (i + kw.length)
    if i + kw.length < j1 then
      let j2 := runEnd isWordChar s j1
      if j1 < j2 then
        let j3 := skipSpaces s j2
        if charAt s j3 = some '=' then
          let j4 := skipSpaces s (j3 + 1)
          if litAt s j4 kwAsync then
            let j5 := skipSpaces s (j4 + 5)
            if charAt s j5 = some '(' then
              match indexOfFrom s ')' (j5 + 1) with
              | some j6 =>
                let j7 := skipSpaces s (j6 + 1)
                if litAt s j7 arrowTok then
                  some ⟨j7 + 2 - i, some (slice s j1 (j2 - j1)),
                        some (slice s (j5 + 1) (j6 - (j5 + 1))), none⟩
                else none
              | none => none
            else
              let j6 := runEnd isWordChar s j5
              if j5 < j6 then
                let j7 := skipSpaces s j6
                if litAt s j7 arrowTok then
                  some ⟨j7 + 2 - i, some (slice s j1 (j2 - j1)), none,
                        some (slice s j5 (j6 - j5))⟩
                else none
              else none
          else none
        else none
      else none
    else none

/-- `generatorFunction: /function\s*\*\s*(\w+)/g` . -/
def matchGeneratorFunction : FMatcher := fun s i =>
  if litAt s i kwFunction then
    let j0 := skipSpaces s (i + 8)
    if charAt s j0 = some '*' then
      let j1 := skipSpaces s (j0 + 1)
      let j2 := runEnd isWordChar s j1
      if j1 < j2 then some ⟨j2 - i, some (slice s j1 (j2 - j1)), none, none⟩
      else none
    else none
  else none

/-- `closurePattern` and `higherOrderReturn` are the same regex
`/return\s+(?:function|\([^)]*\)\s*=>)/g` . -/
def matchReturnFn : FMatcher := fun s i =>
  if litAt s i kwReturn then
    let j0 := skipSpaces s (i + 6)
    if i + 6 < j0 then
      if litAt s j0 kwFunction then some ⟨j0 + 8 - i, none, none, none⟩
      else if charAt s j0 = some '(' then
        match indexOfFrom s ')' (j0 + 1) with
        | some j1 =>
          let j2 := skipSpaces s (j1 + 1)
          if litAt s j2 arrowTok then some ⟨j2 + 2 - i, none, none, none⟩ else none
        | none => none
      else none
    else none
  else none

/-- `varDeclaration: /\bvar\s+\w+/g` . -/
def matchVarDeclaration : FMatcher := fun s i =>
  if prevNonWord s i && litAt s i kwVar then
    let j0 := skipSpaces s (i + 3)
    if i + 3 < j0 then
      let j1 := runEnd isWordChar s j0
      if j0 < j1 then some ⟨j1 - i, none, none, none⟩ else none
    else none
  else none

/-- The sub-pattern `\(\s*(?:function|\([^)]*\)\s*=>)` of `nestedCallbacks`,
returning the exclusive end of its match at `p`. -/
def cbHeadEnd (s : List Char) (p : Nat) : Option Nat :=
  if charAt s p = some '(' then
    let q := skipSpaces s (p + 1)
    if litAt s q kwFunction then some (q + 8)
    else if charAt s q = some '(' then
      match indexOfFrom s ')' (q + 1) with
      | some r =>
        let u := skipSpaces s (r + 1)
        if litAt s u arrowTok then some (u + 2) else none
      | none => none
    else none
  else none

/-- `nestedCallbacks:
/\(\s*(?:function|\([^)]*\)\s*=>)[^}]*\(\s*(?:function|\([^)]*\)\s*=>)/g` .
After the first callback head ends at `e1`, the greedy `[^}]*` commits to the
rightmost start `q` before the next closing brace at which the second
callback head matches. -/
def matchNestedCallbacks : FMatcher := fun s i =>
  match cbHeadEnd s i with
  | none => none
  | some e1 =>
    let brLimit := match indexOfFrom s rbrace e1 with
                   | some b => b
                   | none => s.length
    match lastPos (fun q => (cbHeadEnd s q).isSome) e1 brLimit with
    | some q =>
      match cbHeadEnd s q with
      | some e2 => some ⟨e2 - i, none, none, none⟩
      | none => none
    | none => none

def cbKws : List (List Char) :=
  ["map".toList, "filter".toList, "forEach".toList, "reduce".toList]
def thisDot : List Char := "this.".toList

/-- The part `\s*\([^)]*\)[^}]*this\.` of `thisInCallback` following a chosen
occurrence of the literal `function` starting at `q`; returns the exclusive
match end.  The greedy `[^}]*` commits to the rightmost `this.` before the
next closing brace. -/
def ticTail (s : List Char) (q : Nat) : Option Nat :=
  let d := skipSpaces s (q + 8)
  if charAt s d = some '(' then
    match indexOfFrom s ')' (d + 1) with
    | some e =>
      let brLimit := match indexOfFrom s rbrace (e + 1) with
                     | some b => b
                     | none => s.length
      match lastPos (fun v => litAt s v thisDot) (e + 1) brLimit with
      | some v => some (v + 5)
      | none => none
    | none => none
  else none

/-- `thisInCallback:
/\.(?:map|filter|forEach|reduce)\s*\([^)]*function\s*\([^)]*\)[^}]*this\./g` .
The greedy `[^)]*` commits to the rightmost occurrence of `function` before
the next `)` from which the rest of the pattern matches. -/
def matchThisInCallback : FMatcher := fun s i =>
  if charAt s i = some '.' then
    match firstLit s (i + 1) cbKws with
    | none => none
    | some kw =>
      let b := skipSpaces s (i + 1 + kw.length)
      if charAt s b = some '(' then
        let pLimit := match indexOfFrom s ')' (b + 1) with
                      | some r => r
                      | none => s.length
        match lastPos (fun q => litAt s q kwFunction && (ticTail s q).isSome) (b + 1) pLimit with
        | some q =>
          match ticTail s q with
          | some e2 => some ⟨e2 - i, none, none, none⟩
          | none => none
        | none => none
      else none
  else none

def sqChar : Char := Char.ofNat 39
def dqChar : Char := Char.ofNat 34
def useStrictSingle : List Char := sqChar :: ("use strict".toList ++ [sqChar])
def useStrictDouble : List Char := dqChar :: ("use strict".toList ++ [dqChar])

/-- `useStrict: /'use strict'|"use strict"/` — a non-global regex, so its
`test` is a pure substring check. -/
def hasUseStrict (s : List Char) : Bool :=
  containsSub s useStrictSingle || containsSub s useStrictDouble

/-- `defaultParams: /\(([^)]*=\s*[^,)]+)/g` .  At a `(`, the greedy `[^)]*`
commits to the rightmost `=` before the next `)` whose suffix admits
`\s*[^,)]+`; since `[^,)]` includes whitespace, that suffix condition is
exactly that the character directly after the `=` exists and is neither `,`
nor `)`, and the match then extends to the next `,` or `)` (or the end). -/
def matchDefaultParams : FMatcher := fun s i =>
  if charAt s i = some '(' then
    let limit := match indexOfFrom s ')' (i + 1) with
                 | some r => r
                 | none => s.length
    match lastPos
        (fun e => charAt s e = some '=' &&
          (charAt s (e + 1)).any (fun c => !(c = ',' || c = ')'))) (i + 1) limit with
    | some e =>
      some ⟨runEnd (fun c => !(c = ',' || c = ')')) s (e + 1) - i, none, none, none⟩
    | none => none
  else none

/-- The stateful `PATTERNS.defaultParams.test(content)` : the regex object is
global and is only ever used through `test`, so its `lastIndex` persists
across `analyzeFile` calls; a successful `test` moves `lastIndex` to the
match end, a failing one resets it to 0. -/
def defaultParamsTest (s : List Char) (lastIndex : Nat) : Bool × Nat :=
  match firstMatchFrom matchDefaultParams s lastIndex with
  | some (idx, mt) => (true, idx + mt.len)
  | none => (false, 0)

/-! ### The `analyzeFile` pipeline -/

inductive IssueType where
  | error
  | warning
deriving DecidableEq

structure Issue where
  type : IssueType
  message : List Char
  count : Option Nat := none
deriving DecidableEq

structure PatternCounts where
  declarations : Nat := 0
  expressions : Nat := 0
  arrows : Nat := 0
  async : Nat := 0
  generators : Nat := 0
  closures : Nat := 0
  higherOrder : Nat := 0
deriving DecidableEq

inductive FnType where
  | arrow
  | expression
  | declaration
deriving DecidableEq

structure FnInfo where
  name : List Char
  params : List (List Char)
  line : Nat
  type : FnType
deriving DecidableEq

structure AnalysisResults where
  file : List Char
  functions : List FnInfo
  patterns : PatternCounts
  issues : List Issue
  recommendations : List (List Char)
  complexity : Nat
deriving DecidableEq

/-- JavaScript `String.prototype.split` on a single-character separator. -/
def splitOnChar (sep : Char) : List Char → List (List Char)
  | [] => [[]]
  | a :: as =>
    if a = sep then [] :: splitOnChar sep as
    else
      match splitOnChar sep as with
      | [] => [[a]]
      | l :: ls => (a :: l) :: ls

/-- JavaScript `String.prototype.trim` (ASCII whitespace). -/
def trimChars (l : List Char) : List Char :=
  ((l.dropWhile isSpace).reverse.dropWhile isSpace).reverse

/-- `match[2] || match[3] || ''` : first truthy (defined and non-empty)
capture, else the empty string. -/
def orStr (a b : Option (List Char)) : List Char :=
  match a with
  | some x => if x = [] then (match b with | some y => y | none => []) else x
  | none => match b with | some y => y | none => []

/-- `match[0].includes('=>') ? 'arrow' : match[0].includes('const') ||
match[0].includes('let') ? 'expression' : 'declaration'`. -/
def fnTypeOf (matched : List Char) : FnType :=
  if containsSub matched arrowTok then .arrow
  else if containsSub matched kwConst || containsSub matched kwLet then .expression
  else .declaration

/-- The record pushed onto `results.functions` for one raw match. -/
def fnInfoOf (s : List Char) (im : Nat × FMatch) : FnInfo :=
  { name := im.2.g1.getD [],
    params := ((splitOnChar ',' (orStr im.2.g2 im.2.g3)).map trimChars).filter (fun p => p ≠ []),
    line := lineOf s im.1,
    type := fnTypeOf (slice s im.1 im.2.len) }

/-- The concatenation `[...functionDeclarations, ...functionExpressions,
...arrowFunctions]` of the three `matchAll` scans. -/
def functionMatches (s : List Char) : List (Nat × FMatch) :=
  scanAll matchFunctionDeclaration s ++ scanAll matchFunctionExpression s ++
    scanAll matchArrowFunction s

def readErrMsg (m : List Char) : List Char := ("Could not read file: ".toList) ++ m
def msgVar : List Char :=
  "Found \"var\" declarations - consider using \"const\" or \"let\"".toList
def msgNested : List Char :=
  "Detected nested callbacks - consider using Promises or async/await".toList
def msgThis : List Char :=
  "\"this\" used in callback - may be undefined. Use arrow functions instead.".toList
def msgRecStrict : List Char := "Consider adding \"use strict\" directive".toList
def msgRecDefault : List Char :=
  "Consider using default parameters for optional arguments".toList
def msgRecArrow : List Char := "Consider using arrow functions for shorter syntax".toList
def msgRecClosure : List Char := "High closure usage - ensure proper memory management".toList
def importSp : List Char := "import ".toList
def exportSp : List Char := "export ".toList

/-- `analyzeFile` of `analyze-functions.js`.  The file read is abstracted as
`read` (`Sum.inl msg` models `readFileSync` throwing an error with message
`msg`, in which case the `catch` block records the single read-error issue
and everything else keeps its initial value).  `st` is the persistent
`lastIndex` of the global `defaultParams` regex — the only regex state that
survives one call (every other global regex is either finished by a
`String.match`, which resets `lastIndex` to 0, or followed by one). -/
def analyzeFile (file : List Char) (read : Sum (List Char) (List Char)) (st : Nat) :
    AnalysisResults × Nat :=
  match read with
  | Sum.inl errMsg =>
    ({ file := file, functions := [], patterns := {},
       issues := [⟨.error, readErrMsg errMsg, none⟩],
       recommendations := [], complexity := 0 }, st)
  | Sum.inr content =>
    let patterns : PatternCounts :=
      { declarations := countF matchFunctionDeclaration content,
        expressions := countF matchFunctionExpression content,
        arrows := countF matchArrowFunction content,
        async := countF matchAsyncFunction content + countF matchAsyncArrow content,
        generators := countF matchGeneratorFunction content,
        closures := countF matchReturnFn content,
        higherOrder := countF matchReturnFn content }
    let functions := (functionMatches content).map (fnInfoOf content)
    let issues :=
      (if (firstMatchFrom matchVarDeclaration content 0).isSome then
        [⟨.warning, msgVar, some (countF matchVarDeclaration content)⟩] else []) ++
      (if (firstMatchFrom matchNestedCallbacks content 0).isSome then
        [⟨.warning, msgNested, some (countF matchNestedCallbacks content)⟩] else []) ++
      (if (firstMatchFrom matchThisInCallback content 0).isSome then
        [⟨.error, msgThis, some (countF matchThisInCallback content)⟩] else [])
    let recs1 :=
      if !hasUseStrict content && !containsSub content importSp &&
          !containsSub content exportSp then [msgRecStrict] else []
    let dp := defaultParamsTest content st
    let recs2 := if !dp.1 && 0 < functions.length then [msgRecDefault] else []
    let recs3 := if patterns.arrows * 2 < patterns.expressions then [msgRecArrow] else []
    let recs4 := if 5 < patterns.closures then [msgRecClosure] else []
    ({ file := file, functions := functions, patterns := patterns, issues := issues,
       recommendations := recs1 ++ recs2 ++ recs3 ++ recs4,
       complexity := calculateComplexity content }, dp.2)

/-! ### `analyzeDirectory` and the two `main` entry points -/

mutual
/-- A directory listing as seen by `analyzeDirectory` : `readdirSync` order
is the list order; a file's `read` is `Sum.inr content` when `readFileSync`
succeeds and `Sum.inl msg` when it throws an error with message `msg`
(e.g. an unreadable file).  A directory carries `readErr`, the message
`readFileSync` raises if the program ever reads the directory's own path —
reading a directory always throws (EISDIR), and `analyzeDirectory` does read
one when the entry fails the directory guard but its name ends in `.js`
(the `else if` fallthrough).  The listing is a mutual inductive (a tree and
a sibling list) so that the traversal below is structurally recursive. -/
inductive FsTree where
  | file (name : List Char) (read : Sum (List Char) (List Char))
  | dir (name : List Char) (readErr : List Char) (entries : FsList)
inductive FsList where
  | nil
  | cons (e : FsTree) (rest : FsList)
end

def endsWithL (s suf : List Char) : Bool :=
  suf.length ≤ s.length && litAt s (s.length - suf.length) suf

def jsExt : List Char := ".js".toList
def minJsExt : List Char := ".min.js".toList
def nodeModules : List Char := "node_modules".toList

/-- `file.endsWith('.js') && !file.endsWith('.min.js')`. -/
def eligibleFileName (name : List Char) : Bool :=
  endsWithL name jsExt && !endsWithL name minJsExt

/-- `stat.isDirectory() && !file.startsWith('.') && file !== 'node_modules'`. -/
def eligibleDirName (name : List Char) : Bool :=
  !(charAt name 0 = some '.') && name ≠ nodeModules

mutual
/-- `analyzeDirectory` of `analyze-functions.js` : sequential traversal in
listing order.  An entry passing the directory guard (a directory, not
hidden, not `node_modules`) is recursed into; any other entry — an ordinary
file, or a directory failing that guard — falls through to the `else if`
and is passed to `analyzeFile` when its name ends in `.js` but not
`.min.js` (for a directory that read always fails with its `readErr`).
The `defaultParams` state threads through the calls in analysis order; an
entry filtered out by both guards is never read.  `analyzeEntry` handles
one listing entry, `analyzeEntriesL` a sibling list. -/
def analyzeEntry : FsTree → Nat → List AnalysisResults × Nat
  | FsTree.file n rd, st =>
    if eligibleFileName n then
      let r := analyzeFile n rd st
      ([r.1], r.2)
    else ([], st)
  | FsTree.dir n err sub, st =>
    if eligibleDirName n then analyzeEntriesL sub st
    else if eligibleFileName n then
      let r := analyzeFile n (Sum.inl err) st
      ([r.1], r.2)
    else ([], st)
def analyzeEntriesL : FsList → Nat → List AnalysisResults × Nat
  | FsList.nil, st => ([], st)
  | FsList.cons e rest, st =>
    let r1 := analyzeEntry e st
    let r2 := analyzeEntriesL rest r1.2
    (r1.1 ++ r2.1, r2.2)
end

mutual
/-- The entries one listing entry hands to `analyzeFile`, with what their
reads return, in analysis order (specification-side companion of
`analyzeEntry`; it includes the `.js`-named directories that fall through
the directory guard). -/
def eligibleOfTree : FsTree → List (List Char × Sum (List Char) (List Char))
  | FsTree.file n rd => if eligibleFileName n then [(n, rd)] else []
  | FsTree.dir n err sub =>
    if eligibleDirName n then eligibleOfList sub
    else if eligibleFileName n then [(n, Sum.inl err)] else []
def eligibleOfList : FsList → List (List Char × Sum (List Char) (List Char))
  | FsList.nil => []
  | FsList.cons e rest => eligibleOfTree e ++ eligibleOfList rest
end

/-- `results.some(r => r.issues.some(i => i.type === 'error'))`. -/
def hasErrors (results : List AnalysisResults) : Bool :=
  results.any (fun r => r.issues.any (fun iss => iss.type = IssueType.error))

/-- `totals.files` of `printSummary` : the length of the collected results
list (unreadable files included, since `analyzeFile` returns a result for
them too). -/
def totalsFiles (results : List AnalysisResults) : Nat := results.length

structure AfOutcome where
  results : List AnalysisResults
  exitCode : Nat
deriving DecidableEq

def dashDir : List Char := "--dir".toList

/-- `main` of `analyze-functions.js` : no arguments prints usage and exits 0
without analyzing anything; `--dir` runs the batch over the directory tree
(modelled as given — a directory whose top-level listing itself fails throws
outside any `try` and is not part of this model); any other first argument is
treated as a file path — including option-looking arguments such as
`--help` — and analyzed; the exit code is 1 exactly when some collected
result contains an error-type issue. -/
def afMain (fs : List Char → Sum (List Char) (List Char)) (tree : FsList)
    (args : List (List Char)) : AfOutcome :=
  match args with
  | [] => { results := [], exitCode := 0 }
  | a0 :: _ =>
    let results := if a0 = dashDir then (analyzeEntriesL tree 0).1
                   else [(analyzeFile a0 (fs a0) 0).1]
    { results := results, exitCode := if hasErrors results then 1 else 0 }

structure DomOutcome where
  analyzed : Bool
  errorFindings : Nat
  exitCode : Nat
deriving DecidableEq

/-- `main` of `dom-analyzer.js`, parameterized by the read outcome of each
path (`fsRead`, with `Sum.inl msg` modelling `readFileSync` throwing) and by
the number of error-type issues the `HTMLAnalyzer` would report for a given
content (`generateReport` returns `errorCount === 0` and `main` exits 0
exactly on `true`).  No argument prints usage (which advertises a `--help`
option) and exits 0; otherwise the first argument — again including
`--help` itself — is taken as a file path: a missing file exits 1 having
analyzed nothing; an existing file is read by `readFileSync` outside any
try/catch, so a failing read (e.g. an unreadable file) escapes as an
uncaught exception and the process dies with exit code 1 having produced no
findings; only a successful read is analyzed, and then the exit code
reflects the error count. -/
def domMain (fsExists : List Char → Bool)
    (fsRead : List Char → Sum (List Char) (List Char))
    (errCount : List Char → Nat) (args : List (List Char)) : DomOutcome :=
  match args with
  | [] => { analyzed := false, errorFindings := 0, exitCode := 0 }
  | a0 :: _ =>
    if fsExists a0 then
      match fsRead a0 with
      | Sum.inl _ => { analyzed := false, errorFindings := 0, exitCode := 1 }
      | Sum.inr html =>
        { analyzed := true, errorFindings := errCount html,
          exitCode := if errCount html = 0 then 0 else 1 }
    else { analyzed := false, errorFindings := 0, exitCode := 1 }

/-- Sequential analysis of a flat file list with the regex state threaded in
order (specification-side companion of `analyzeEntriesL` : the batch is the
sequential analysis of the tree's eligible files). -/
def analyzeSeq : List (List Char × Sum (List Char) (List Char)) → Nat →
    List AnalysisResults × Nat
  | [], st => ([], st)
  | (n, rd) :: fs, st =>
    let r := analyzeFile n rd st
    let rest := analyzeSeq fs r.2
    (r.1 :: rest.1, rest.2)

/-! ### Concrete fixtures used by counterexamples and witnesses -/

/-- A one-function buffer with a default parameter:
`function f(a = 1) { }` (braces written as escapes). -/
def bufDefaultParam : List Char := "function f(a = 1) \x7b \x7d".toList

/-- A buffer whose only finding is the `var` warning. -/
def bufVarOnly : List Char := "var x".toList

def errMsgEnoent : List Char := "ENOENT: no such file or directory".toList
def errMsgEacces : List Char := "EACCES: permission denied".toList
def helpArg : List Char := "--help".toList

def errMsgEisdir : List Char := "EISDIR: illegal operation on a directory, read".toList

/-- A directory listing with three `.js` files of which the third is
unreadable. -/
def tree3 : FsList :=
  FsList.cons (FsTree.file ("a.js".toList) (Sum.inr bufVarOnly))
    (FsList.cons (FsTree.file ("b.js".toList) (Sum.inr []))
      (FsList.cons (FsTree.file ("c.js".toList) (Sum.inl errMsgEacces))
        FsList.nil))

/-- `tree3` plus a hidden directory whose name nevertheless ends in `.js` :
it fails the directory guard, falls through to the file branch, and is
passed to `analyzeFile`, whose read fails with EISDIR. -/
def tree4 : FsList :=
  FsList.cons (FsTree.file ("a.js".toList) (Sum.inr bufVarOnly))
    (FsList.cons (FsTree.file ("b.js".toList) (Sum.inr []))
      (FsList.cons (FsTree.file ("c.js".toList) (Sum.inl errMsgEacces))
        (FsList.cons (FsTree.dir (".x.js".toList) errMsgEisdir FsList.nil)
          FsList.nil)))

/-- Five independent conditional branches and no other decision point. -/
def bufFiveIfs : List Char := "if (a) if (b) if (c) if (d) if (e)".toList

/-- `else if (x)` : one `if`-pattern and one `else if`-pattern occurrence. -/
def bufElseIf : List Char := "else if (x)".toList

/-- `bufElseIf` with the decision-point construct `&&` inserted between
`if` and the parenthesis (everything else unchanged). -/
def bufElseIfSplit : List Char := ("else if".toList) ++ ("&&".toList) ++ (" (x)".toList)

/-- A markup fragment with a closing tag at depth zero and no qualifying
open tag. -/
def bufCloseOnly : List Char := "</div><br/>x".toList

/-- A function declaration whose match spans two lines (the parameter list
contains a newline). -/
def bufMultiline : List Char := "function f(\na) \x7b".toList

/-- A single-line function declaration. -/
def bufSingleLine : List Char := "function f(a) \x7b".toList

end S2P

namespace S2P

/-! ## Theorems -/

/-- Helper: folding `acc + count m s` over a matcher list from `n` is `n`
plus the sum of the counts. -/
theorem foldl_add_count (l : List SMatcher) (s : List Char) (n : Nat) :
    l.foldl (fun acc m => acc + count m s) n = n + (l.map (fun m => count m s)).sum := by
  induction l generalizing n with
  | nil => simp
  | cons m ms ih => simp only [List.foldl_cons, List.map_cons, List.sum_cons, ih]; omega

/-- C4: the branch-density score is 1 plus the total number of occurrences
of the ten decision-point sub-patterns, and a buffer with exactly five
independent conditional branches and no other decision point scores 6. -/
theorem calculateComplexity_one_plus_total :
    (∀ s, calculateComplexity s = 1 + totalOccurrences s) ∧
      calculateComplexity bufFiveIfs = 6 :=
  ⟨fun s => foldl_add_count decisionPatterns s 1, by decide⟩

/-- C5 counterexample: inserting the decision-point construct `&&` into a
buffer (between `if` and `(`, all other characters unchanged) strictly
decreases the branch-density score, because the insertion splits the
existing `if (`-style decision points; `&&` on its own is a decision-point
construct (it scores one occurrence). -/
theorem insertion_decreases_complexity :
    calculateComplexity bufElseIfSplit < calculateComplexity bufElseIf ∧
      count (matchLit2 '&') ("&&".toList) = 1 := by decide

/-- C2 counterexample: on input `</div>` the running depth counter of
`estimateDepth` is decremented below zero — the closing tag seen at depth
zero leaves depth at `-1`, not `0` (no defensive floor exists). -/
theorem depth_goes_negative :
    (estimateDepthScan ("</div>".toList)).depth = -1 := by decide

/-- Helper: one tag-classification step never lowers a non-negative maximum
depth below zero. -/
theorem stepTag_maxDepth_nonneg (tag : List Char) (st : DepthState)
    (h : 0 ≤ st.maxDepth) : 0 ≤ (stepTag tag st).maxDepth := by
  unfold stepTag
  split
  · exact h
  · split
    · split
      · split
        · exact h
        · simp only []
          split <;> omega
      · exact h
    · exact h

/-- Helper: the scan loop preserves non-negativity of the maximum depth. -/
theorem depthLoopF_maxDepth_nonneg (s : List Char) :
    ∀ fuel pos st, 0 ≤ st.maxDepth → 0 ≤ (depthLoopF s fuel pos st).maxDepth := by
  intro fuel
  induction fuel with
  | zero => intro pos st h; exact h
  | succ f ih =>
    intro pos st h
    unfold depthLoopF
    split
    · exact h
    · split
      · exact h
      · exact ih _ _ (stepTag_maxDepth_nonneg _ _ h)

/-- C9: the maximum nesting depth stored by `estimateDepth` is never
negative, for every input — including inputs whose closing tags outnumber
opening tags and drive the running depth below zero. -/
theorem estimateDepth_nonneg (s : List Char) : 0 ≤ estimateDepth s :=
  depthLoopF_maxDepth_nonneg s _ _ _ (by decide)

/-- Helper: one step never decreases the increment counter, and if it leaves
the counter unchanged it leaves the maximum depth unchanged. -/
theorem stepTag_increments (tag : List Char) (st : DepthState) :
    st.increments ≤ (stepTag tag st).increments ∧
      ((stepTag tag st).increments = st.increments →
        (stepTag tag st).maxDepth = st.maxDepth) := by
  unfold stepTag
  split
  · exact ⟨Nat.le_refl _, fun _ => rfl⟩
  · split
    · split
      · split
        · exact ⟨Nat.le_refl _, fun _ => rfl⟩
        · exact ⟨Nat.le_succ _, fun h => absurd h (Nat.succ_ne_self _)⟩
      · exact ⟨Nat.le_refl _, fun _ => rfl⟩
    · exact ⟨Nat.le_refl _, fun _ => rfl⟩

/-- Helper: transitivity of the property "the increment counter does not
decrease, and an unchanged counter means an unchanged maximum". -/
theorem incStep_trans (st1 st2 st3 : DepthState)
    (h12 : st1.increments ≤ st2.increments ∧
      (st2.increments = st1.increments → st2.maxDepth = st1.maxDepth))
    (h23 : st2.increments ≤ st3.increments ∧
      (st3.increments = st2.increments → st3.maxDepth = st2.maxDepth)) :
    st1.increments ≤ st3.increments ∧
      (st3.increments = st1.increments → st3.maxDepth = st1.maxDepth) := by
  refine ⟨Nat.le_trans h12.1 h23.1, fun h => ?_⟩
  have h2 : st2.increments = st1.increments := Nat.le_antisymm (h ▸ h23.1) h12.1
  rw [h23.2 (by omega), h12.2 h2]

/-- Helper: the loop never decreases the increment counter, and if it leaves
the counter unchanged it leaves the maximum depth unchanged. -/
theorem depthLoopF_increments (s : List Char) :
    ∀ fuel pos st, st.increments ≤ (depthLoopF s fuel pos st).increments ∧
      ((depthLoopF s fuel pos st).increments = st.increments →
        (depthLoopF s fuel pos st).maxDepth = st.maxDepth) := by
  intro fuel
  induction fuel with
  | zero => intro pos st; exact ⟨Nat.le_refl _, fun _ => rfl⟩
  | succ f ih =>
    intro pos st
    unfold depthLoopF
    split
    · exact ⟨Nat.le_refl _, fun _ => rfl⟩
    · split
      · exact ⟨Nat.le_refl _, fun _ => rfl⟩
      · exact incStep_trans _ _ _ (stepTag_increments _ _) (ih _ _)

/-- C2 (amended): there is no defensive floor — the running depth counter
does go negative on a closing tag at depth zero (see the counterexample) —
but the value the estimator returns is still `0` for every input in which no
qualifying (depth-increasing) open tag is seen: the maximum is only moved by
the increment branch. -/
theorem estimateDepth_zero_of_no_opens (s : List Char)
    (h : (estimateDepthScan s).increments = 0) : estimateDepth s = 0 :=
  (depthLoopF_increments s (s.length + 1) 0 ⟨0, 0, 0⟩).2 h

/-- Witness for `estimateDepth_zero_of_no_opens` at the concrete input
`</div><br/>x` (a closing tag, a self-closing void tag, text — no
qualifying open tag). -/
theorem estimateDepth_zero_of_no_opens_witness :
    (estimateDepthScan bufCloseOnly).increments = 0 ∧ estimateDepth bufCloseOnly = 0 :=
  ⟨by decide, estimateDepth_zero_of_no_opens bufCloseOnly (by decide)⟩

/-- C1 (the code-level bug behind the idempotence claim): `analyzeFile` run
twice on the same unchanged buffer inside one process does not return
identical results.  The global `defaultParams` regex is only ever consumed
through `test`, so its `lastIndex` survives into the next call: on
`function f(a = 1) { }` the first run finds the default parameter (no
recommendation, `lastIndex` ends at 16) and the second run, resuming at 16,
finds none and adds the default-parameter recommendation.  Issues, pattern
counts and complexity are unaffected. -/
theorem analyzeFile_twice_differs :
    (analyzeFile ("a.js".toList) (Sum.inr bufDefaultParam) 0).2 = 16 ∧
    (analyzeFile ("a.js".toList) (Sum.inr bufDefaultParam) 0).1.recommendations =
      [msgRecStrict] ∧
    (analyzeFile ("a.js".toList) (Sum.inr bufDefaultParam)
        (analyzeFile ("a.js".toList) (Sum.inr bufDefaultParam) 0).2).1.recommendations =
      [msgRecStrict, msgRecDefault] ∧
    (analyzeFile ("a.js".toList) (Sum.inr bufDefaultParam) 0).1 ≠
      (analyzeFile ("a.js".toList) (Sum.inr bufDefaultParam)
        (analyzeFile ("a.js".toList) (Sum.inr bufDefaultParam) 0).2).1 := by decide

/-- C8 (code bug): an invocation whose argument is `--help` is not handled
as an option by either tool.  `analyze-functions.js` treats `--help` as a
file path, analyzes it (the failed read becomes an error finding) and exits
1; `dom-analyzer.js` — whose own usage text advertises `--help` — hits the
missing-file check and exits 1 without analysis.  Neither prints usage and
exits 0. -/
theorem help_flag_treated_as_path :
    (afMain (fun _ => Sum.inl errMsgEnoent) FsList.nil [helpArg]).exitCode = 1 ∧
    (afMain (fun _ => Sum.inl errMsgEnoent) FsList.nil [helpArg]).results =
      [⟨helpArg, [], ⟨0, 0, 0, 0, 0, 0, 0⟩,
        [⟨IssueType.error, readErrMsg errMsgEnoent, none⟩], [], 0⟩] ∧
    (domMain (fun _ => false) (fun _ => Sum.inl errMsgEnoent) (fun _ => 0)
      [helpArg]).exitCode = 1 ∧
    (domMain (fun _ => false) (fun _ => Sum.inl errMsgEnoent) (fun _ => 0)
      [helpArg]).analyzed = false := by decide

/-- C3 counterexample: a `dom-analyzer.js` invocation on a missing input
file exits 1 although no error-severity finding was produced (nothing was
analyzed at all), and so does one on an existing but unreadable input — the
`readFileSync` in `main` runs outside any try/catch, so the read error
escapes uncaught and the process exits 1 with no findings.  Both refute
"exit code 0 iff no error-severity finding was produced". -/
theorem dom_startup_failures_break_parity :
    (¬ ((domMain (fun _ => false) (fun _ => Sum.inl errMsgEnoent) (fun _ => 0)
          [("missing.html".toList)]).exitCode = 0 ↔
        (domMain (fun _ => false) (fun _ => Sum.inl errMsgEnoent) (fun _ => 0)
          [("missing.html".toList)]).errorFindings = 0)) ∧
    (¬ ((domMain (fun _ => true) (fun _ => Sum.inl errMsgEacces) (fun _ => 0)
          [("locked.html".toList)]).exitCode = 0 ↔
        (domMain (fun _ => true) (fun _ => Sum.inl errMsgEacces) (fun _ => 0)
          [("locked.html".toList)]).errorFindings = 0)) := by
  decide

/-- C3 (amended): exit-code parity holds for every `analyze-functions.js`
invocation (single-file or batch over its directory listing) and for every
`dom-analyzer.js` invocation whose input file exists and whose read
succeeds: the exit code is 0 iff no error-severity finding was produced; in
particular a buffer whose only finding is one `var` warning exits with code
0.  (A `dom-analyzer.js` invocation on a missing file, or on an existing
file whose uncaught read fails, is a startup failure refuting the
unconditional claim.) -/
theorem exit_code_parity :
    (∀ fs tree args, (afMain fs tree args).exitCode = 0 ↔
        ∀ r ∈ (afMain fs tree args).results, ∀ iss ∈ r.issues,
          iss.type ≠ IssueType.error) ∧
    (∀ ex rd ec a0 rest html, ex a0 = true → rd a0 = Sum.inr html →
        ((domMain ex rd ec (a0 :: rest)).exitCode = 0 ↔
          (domMain ex rd ec (a0 :: rest)).errorFindings = 0)) ∧
    ((analyzeFile ("w.js".toList) (Sum.inr bufVarOnly) 0).1.issues =
        [⟨IssueType.warning, msgVar, some 1⟩] ∧
      (afMain (fun _ => Sum.inr bufVarOnly) FsList.nil [("w.js".toList)]).exitCode = 0) := by
  have hgen : ∀ results : List AnalysisResults,
      (if hasErrors results then 1 else 0) = 0 ↔
        ∀ r ∈ results, ∀ iss ∈ r.issues, iss.type ≠ IssueType.error := by
    intro results
    have h1 : ((if hasErrors results then 1 else 0) = 0) ↔ hasErrors results = false := by
      cases h : hasErrors results <;> simp
    rw [h1]
    simp [hasErrors]
  refine ⟨fun fs tree args => ?_, fun ex rd ec a0 rest html hex hrd => ?_, by decide, by decide⟩
  · cases args with
    | nil => simp [afMain]
    | cons a0 rest =>
      simpa [afMain] using
        hgen (if a0 = dashDir then (analyzeEntriesL tree 0).1
              else [(analyzeFile a0 (fs a0) 0).1])
  · simp only [domMain, hex, if_true, hrd]
    constructor
    · intro h
      by_contra hc
      rw [if_neg hc] at h
      exact one_ne_zero h
    · intro h
      rw [if_pos h]

/-- Witness for `exit_code_parity` : the `dom-analyzer.js` conjunct applied
at an existing, readable file with no error findings gives exit code 0. -/
theorem exit_code_parity_witness :
    (domMain (fun _ => true) (fun _ => Sum.inr []) (fun _ => 0)
      [("ok.html".toList)]).exitCode = 0 :=
  ((exit_code_parity.2.1 (fun _ => true) (fun _ => Sum.inr []) (fun _ => 0)
    ("ok.html".toList) [] [] rfl rfl).mpr (by decide))

/-- Helper: `analyzeSeq` distributes over list concatenation, threading the
state through. -/
theorem analyzeSeq_append (a b : List (List Char × Sum (List Char) (List Char)))
    (st : Nat) :
    analyzeSeq (a ++ b) st =
      ((analyzeSeq a st).1 ++ (analyzeSeq b (analyzeSeq a st).2).1,
        (analyzeSeq b (analyzeSeq a st).2).2) := by
  induction a generalizing st with
  | nil => simp [analyzeSeq]
  | cons hd tl ih =>
    obtain ⟨n, rd⟩ := hd
    simp [analyzeSeq, ih]

mutual
/-- Helper: the batch traversal equals the sequential analysis of the
eligible files, in order (mutually with `analyzeEntriesL_eq_seq`). -/
theorem analyzeEntry_eq_seq : ∀ (e : FsTree) (st : Nat),
    analyzeEntry e st = analyzeSeq (eligibleOfTree e) st
  | FsTree.file n rd, st => by
    by_cases h : eligibleFileName n = true
    · simp [analyzeEntry, eligibleOfTree, h, analyzeSeq]
    · simp [analyzeEntry, eligibleOfTree, h, analyzeSeq]
  | FsTree.dir n err sub, st => by
    by_cases h : eligibleDirName n = true
    · simp [analyzeEntry, eligibleOfTree, h, analyzeEntriesL_eq_seq sub st]
    · by_cases h2 : eligibleFileName n = true
      · simp [analyzeEntry, eligibleOfTree, h, h2, analyzeSeq]
      · simp [analyzeEntry, eligibleOfTree, h, h2, analyzeSeq]
/-- Helper: list form of `analyzeEntry_eq_seq`. -/
theorem analyzeEntriesL_eq_seq : ∀ (l : FsList) (st : Nat),
    analyzeEntriesL l st = analyzeSeq (eligibleOfList l) st
  | FsList.nil, _ => rfl
  | FsList.cons e rest, st => by
    rw [show analyzeEntriesL (FsList.cons e rest) st =
        ((analyzeEntry e st).1 ++ (analyzeEntriesL rest (analyzeEntry e st).2).1,
          (analyzeEntriesL rest (analyzeEntry e st).2).2) from rfl,
      analyzeEntry_eq_seq e st, analyzeEntriesL_eq_seq rest _,
      show eligibleOfList (FsList.cons e rest) = eligibleOfTree e ++ eligibleOfList rest
        from rfl,
      analyzeSeq_append]
end

/-- Helper: `analyzeSeq` produces one result per file. -/
theorem analyzeSeq_length (fs : List (List Char × Sum (List Char) (List Char))) :
    ∀ st, (analyzeSeq fs st).1.length = fs.length := by
  induction fs with
  | nil => intro st; rfl
  | cons hd tl ih =>
    intro st
    obtain ⟨n, rd⟩ := hd
    simp [analyzeSeq, ih]

/-- Helper: the `k`-th result of `analyzeSeq` is the analysis of the `k`-th
file at some threaded regex state. -/
theorem analyzeSeq_get (fs : List (List Char × Sum (List Char) (List Char))) :
    ∀ st k n rd, fs.get? k = some (n, rd) →
      ∃ st2, (analyzeSeq fs st).1.get? k = some (analyzeFile n rd st2).1 := by
  induction fs with
  | nil => intro st k n rd h; simp at h
  | cons hd tl ih =>
    intro st k n rd h
    obtain ⟨n0, rd0⟩ := hd
    cases k with
    | zero =>
      simp only [List.get?_cons_zero, Option.some_inj] at h
      injection h with h1 h2
      subst h1
      subst h2
      exact ⟨st, rfl⟩
    | succ k0 =>
      simp only [List.get?_cons_succ] at h
      obtain ⟨st2, hst2⟩ := ih (analyzeFile n0 rd0 st).2 k0 n rd h
      exact ⟨st2, by simpa [analyzeSeq] using hst2⟩

/-- C7 counterexample: a batch over a directory with three `.js` files of
which one is unreadable yields a summary counting 3 files, not 2 — the
unreadable file's result (with its single read-error issue, which carries no
rule-id field of any kind) is part of the collected results — and the batch
fails overall. -/
theorem batch_three_files_counts_three :
    totalsFiles (analyzeEntriesL tree3 0).1 = 3 ∧
      ¬ totalsFiles (analyzeEntriesL tree3 0).1 = 2 ∧
      (analyzeEntriesL tree3 0).1.get? 2 =
        some ⟨"c.js".toList, [], ⟨0, 0, 0, 0, 0, 0, 0⟩,
          [⟨IssueType.error, readErrMsg errMsgEacces, none⟩], [], 0⟩ ∧
      hasErrors (analyzeEntriesL tree3 0).1 = true := by decide

/-- C7 (amended): in batch mode every eligible file — readable or not —
contributes exactly one result in traversal order (the summary therefore
counts the unreadable file too); an unreadable file's result carries exactly
one error-severity finding, whose message is `Could not read file: <msg>`
(issues have no rule-id field); and the batch fails overall whenever some
eligible file is unreadable. -/
theorem batch_unreadable_degradation (l : FsList) (st k : Nat) (n m : List Char)
    (h : (eligibleOfList l).get? k = some (n, Sum.inl m)) :
    totalsFiles (analyzeEntriesL l st).1 = (eligibleOfList l).length ∧
      ((analyzeEntriesL l st).1.get? k).map (fun r => r.issues) =
        some [⟨IssueType.error, readErrMsg m, none⟩] ∧
      hasErrors (analyzeEntriesL l st).1 = true := by
  rw [analyzeEntriesL_eq_seq]
  obtain ⟨st2, hget⟩ := analyzeSeq_get (eligibleOfList l) st k n (Sum.inl m) h
  refine ⟨analyzeSeq_length _ st, ?_, ?_⟩
  · rw [hget]; rfl
  · have hmem : (analyzeFile n (Sum.inl m) st2).1 ∈ (analyzeSeq (eligibleOfList l) st).1 :=
      List.get?_mem hget
    apply List.any_eq_true.mpr
    refine ⟨_, hmem, ?_⟩
    simp [analyzeFile]

/-- Witness for `batch_unreadable_degradation` at the concrete listing
`tree4` : three `.js` files (the third unreadable) plus a directory named
`.x.js` that fails the directory guard (hidden name), falls through the
`else if` to `analyzeFile`, and fails to read — four counted entries in
total, so the eligible-entry count is 4, not 3. -/
theorem batch_unreadable_degradation_witness :
    (eligibleOfList tree4).get? 2 = some ("c.js".toList, Sum.inl errMsgEacces) ∧
      (eligibleOfList tree4).length = 4 ∧
      (eligibleOfList tree4).get? 3 = some (".x.js".toList, Sum.inl errMsgEisdir) ∧
      (totalsFiles (analyzeEntriesL tree4 0).1 = (eligibleOfList tree4).length ∧
        ((analyzeEntriesL tree4 0).1.get? 2).map (fun r => r.issues) =
          some [⟨IssueType.error, readErrMsg errMsgEacces, none⟩] ∧
        hasErrors (analyzeEntriesL tree4 0).1 = true) :=
  ⟨by decide, by decide, by decide,
    batch_unreadable_degradation tree4 0 2 ("c.js".toList) errMsgEacces (by decide)⟩

/-! ### Specification lemmas for the scanning primitives -/

/-- Helper: an in-bounds character lookup. -/
theorem charAt_lt (s : List Char) (i : Nat) (c : Char) (h : charAt s i = some c) :
    i < s.length := by
  by_contra hc
  rw [charAt, List.get?_eq_none.mpr (by omega)] at h
  exact Option.noConfusion h

/-- Helper: `charAt` on a list extended on the right agrees on in-bounds
indices. -/
theorem charAt_append (s t : List Char) (i : Nat) (h : i < s.length) :
    charAt (s ++ t) i = charAt s i := by
  simp [charAt, List.get?_eq_getElem?, List.getElem?_append_left h]

/-- Helper: elimination form of the fueled upward scan. -/
theorem firstPosF_some_spec (p : Nat → Bool) (bound : Nat) :
    ∀ fuel i j, firstPosF p bound fuel i = some j →
      i ≤ j ∧ j < bound ∧ p j = true ∧ ∀ k, i ≤ k → k < j → p k = false := by
  intro fuel
  induction fuel with
  | zero => intro i j h; exact Option.noConfusion h
  | succ f ih =>
    intro i j h
    unfold firstPosF at h
    by_cases hib : i < bound
    · rw [if_pos hib] at h
      by_cases hp : p i = true
      · rw [if_pos hp] at h
        obtain rfl : i = j := Option.some_inj.mp h
        exact ⟨Nat.le_refl _, hib, hp, fun k h1 h2 => absurd (Nat.lt_of_le_of_lt h1 h2)
          (Nat.lt_irrefl _)⟩
      · rw [if_neg hp] at h
        obtain ⟨h1, h2, h3, h4⟩ := ih (i + 1) j h
        refine ⟨by omega, h2, h3, fun k hk1 hk2 => ?_⟩
        rcases Nat.eq_or_lt_of_le hk1 with hk | hk
        · simpa [← hk] using Bool.eq_false_iff.mpr hp
        · exact h4 k hk hk2
    · rw [if_neg hib] at h
      exact Option.noConfusion h

/-- Helper: the fueled upward scan finds nothing iff nothing is in range
(given sufficient fuel). -/
theorem firstPosF_none_iff (p : Nat → Bool) (bound : Nat) :
    ∀ fuel i, bound ≤ i + fuel →
      (firstPosF p bound fuel i = none ↔ ∀ j, i ≤ j → j < bound → p j = false) := by
  intro fuel
  induction fuel with
  | zero =>
    intro i hfuel
    simp only [firstPosF, true_iff]
    intro j h1 h2
    omega
  | succ f ih =>
    intro i hfuel
    unfold firstPosF
    by_cases hib : i < bound
    · rw [if_pos hib]
      by_cases hp : p i = true
      · rw [if_pos hp]
        constructor
        · intro h
          exact Option.noConfusion h
        · intro h
          exact absurd (h i (Nat.le_refl _) hib) (by simp [hp])
      · rw [if_neg hp]
        rw [ih (i + 1) (by omega)]
        constructor
        · intro h j h1 h2
          rcases Nat.eq_or_lt_of_le h1 with hk | hk
          · simpa [← hk] using Bool.eq_false_iff.mpr hp
          · exact h j hk h2
        · intro h j h1 h2
          exact h j (by omega) h2
    · rw [if_neg hib]
      simp only [true_iff]
      intro j h1 h2
      omega

/-- Helper: elimination form of `firstPos`. -/
theorem firstPos_some_spec (p : Nat → Bool) (bound i j : Nat)
    (h : firstPos p bound i = some j) :
    i ≤ j ∧ j < bound ∧ p j = true ∧ ∀ k, i ≤ k → k < j → p k = false :=
  firstPosF_some_spec p bound _ i j h

/-- Helper: `firstPos` finds nothing iff nothing is in range. -/
theorem firstPos_none_iff (p : Nat → Bool) (bound i : Nat) :
    firstPos p bound i = none ↔ ∀ j, i ≤ j → j < bound → p j = false :=
  firstPosF_none_iff p bound (bound - i) i (by omega)

/-- Helper: introduction form — a witness in range means the scan succeeds. -/
theorem firstPos_isSome (p : Nat → Bool) (bound i j : Nat)
    (h1 : i ≤ j) (h2 : j < bound) (h3 : p j = true) :
    (firstPos p bound i).isSome = true := by
  cases hfp : firstPos p bound i with
  | none => exact absurd ((firstPos_none_iff p bound i).mp hfp j h1 h2) (by simp [h3])
  | some v => rfl

/-- Helper: a literal occurs at the length of the left part of a
decomposition. -/
theorem litAt_append_middle (w : List Char) :
    ∀ (pre post : List Char), litAt (pre ++ w ++ post) pre.length w = true := by
  induction w with
  | nil => intro pre post; rfl
  | cons c cs ih =>
    intro pre post
    simp only [litAt, Bool.and_eq_true, decide_eq_true_eq]
    constructor
    · rw [charAt, List.append_assoc, List.get?_append_right (Nat.le_refl _)]
      simp
    · have h2 := ih (pre ++ [c]) post
      rw [show (pre ++ [c]) ++ cs ++ post = pre ++ (c :: cs) ++ post by simp,
        List.length_append, List.length_singleton] at h2
      simpa [List.append_assoc] using h2

/-- Helper: a matched literal is the corresponding slice, and lies in
bounds (unless empty). -/
theorem litAt_slice (s : List Char) (w : List Char) :
    ∀ i, litAt s i w = true →
      slice s i w.length = w ∧ (w = [] ∨ i + w.length ≤ s.length) := by
  induction w with
  | nil => intro i _; exact ⟨by simp [slice], Or.inl rfl⟩
  | cons c cs ih =>
    intro i h
    simp only [litAt, Bool.and_eq_true, decide_eq_true_eq] at h
    obtain ⟨h1, h2⟩ := h
    have hlt : i < s.length := charAt_lt s i c h1
    have hdrop : s.drop i = c :: s.drop (i + 1) := by
      rw [List.drop_eq_get_cons hlt]
      congr 1
      have := List.get?_eq_get hlt
      rw [charAt] at h1
      rw [h1] at this
      exact (Option.some_inj.mp this).symm
    obtain ⟨ihs, ihb⟩ := ih (i + 1) h2
    constructor
    · rw [slice, hdrop, List.length_cons, List.take_succ_cons]
      rw [slice] at ihs
      rw [ihs]
    · right
      rcases ihb with hnil | hb
      · subst hnil
        simpa using hlt
      · simpa [List.length_cons] using by omega

/-- Helper: a list is its prefix, a middle slice and the rest. -/
theorem take_slice_drop (s : List Char) (i n : Nat) :
    s = s.take i ++ slice s i n ++ s.drop (i + n) := by
  rw [List.append_assoc, slice]
  have h1 : s.drop (i + n) = (s.drop i).drop n := by
    rw [List.drop_drop, Nat.add_comm]
  rw [h1, List.take_append_drop, List.take_append_drop]

/-- Helper: `containsSub` is substring occurrence. -/
theorem containsSub_iff (hay needle : List Char) :
    containsSub hay needle = true ↔ ∃ pre post, hay = pre ++ needle ++ post := by
  constructor
  · intro h
    rw [containsSub] at h
    cases hfp : firstPos (fun j => litAt hay j needle) (hay.length + 1) 0 with
    | none => rw [hfp] at h; exact Bool.noConfusion h
    | some j =>
      obtain ⟨_, _, hp, _⟩ := firstPos_some_spec _ _ _ _ hfp
      obtain ⟨hs, _⟩ := litAt_slice hay needle j hp
      refine ⟨hay.take j, hay.drop (j + needle.length), ?_⟩
      conv_lhs => rw [take_slice_drop hay j needle.length]
      rw [hs]
  · rintro ⟨pre, post, rfl⟩
    rw [containsSub]
    apply firstPos_isSome _ _ 0 pre.length (Nat.zero_le _) (by simp; omega)
    exact litAt_append_middle needle pre post

/-! ### Line correctness -/

/-- Helper: splitting never yields an empty list of lines. -/
theorem splitNl_ne_nil (s : List Char) : splitNl s ≠ [] := by
  cases s with
  | nil => simp [splitNl]
  | cons c cs =>
    unfold splitNl
    by_cases h : c = '\n'
    · simp [h]
    · rw [if_neg h]
      cases splitNl cs <;> simp

/-- Helper: splitting at a leading newline. -/
theorem splitNl_cons_nl (cs : List Char) : splitNl ('\n' :: cs) = [] :: splitNl cs := by
  simp [splitNl]

/-- Helper: splitting at a leading non-newline character. -/
theorem splitNl_cons_other (c : Char) (cs l : List Char) (ls : List (List Char))
    (hc : c ≠ '\n') (hsp : splitNl cs = l :: ls) :
    splitNl (c :: cs) = (c :: l) :: ls := by
  unfold splitNl
  rw [if_neg hc, hsp]

/-- Helper: counting a newline prefix. -/
theorem countNl_cons (c : Char) (cs : List Char) :
    countNl (c :: cs) = (if c = '\n' then 1 else 0) + countNl cs := by
  by_cases h : c = '\n' <;> simp [countNl, List.count_cons, h] <;> omega

/-- Helper: a newline-free prefix of the buffer is a prefix of its first
line. -/
theorem take_prefix_of_line (s : List Char) :
    ∀ L, (∀ c ∈ s.take L, c ≠ '\n') →
      ∃ post, (splitNl s).getD 0 [] = s.take L ++ post := by
  induction s with
  | nil => intro L _; exact ⟨[], by simp [splitNl]⟩
  | cons c cs ih =>
    intro L hnl
    cases L with
    | zero => exact ⟨(splitNl (c :: cs)).getD 0 [], by simp⟩
    | succ L0 =>
      have hc : c ≠ '\n' := hnl c (by simp)
      obtain ⟨post, hpost⟩ := ih L0 (fun x hx => hnl x (by simp [hx]))
      refine ⟨post, ?_⟩
      cases hsp : splitNl cs with
      | nil => exact absurd hsp (splitNl_ne_nil cs)
      | cons l ls =>
        rw [splitNl_cons_other c cs l ls hc hsp]
        rw [hsp] at hpost
        simp only [List.getD_cons_zero] at hpost ⊢
        rw [List.take_succ_cons, hpost]
        simp

/-- Helper: a newline-free slice of the buffer occurs inside the line that
its start offset lies on (the `countNl (s.take i)`-th line, 0-based). -/
theorem slice_in_line (s : List Char) :
    ∀ i L, (∀ c ∈ slice s i L, c ≠ '\n') →
      ∃ pre post, (splitNl s).getD (countNl (s.take i)) [] = pre ++ slice s i L ++ post := by
  induction s with
  | nil =>
    intro i L _
    refine ⟨[], [], ?_⟩
    simp [splitNl, slice, countNl]
  | cons c cs ih =>
    intro i L hnl
    cases i with
    | zero =>
      obtain ⟨post, hpost⟩ := take_prefix_of_line (c :: cs) L (by
        intro x hx
        exact hnl x (by simpa [slice] using hx))
      exact ⟨[], post, by simpa [slice, countNl] using hpost⟩
    | succ i0 =>
      have hslice : slice (c :: cs) (i0 + 1) L = slice cs i0 L := rfl
      rw [hslice] at hnl ⊢
      have htake : (c :: cs).take (i0 + 1) = c :: cs.take i0 := rfl
      rw [htake, countNl_cons]
      by_cases hc : c = '\n'
      · rw [if_pos hc, hc, splitNl_cons_nl]
        rw [show 1 + countNl (cs.take i0) = countNl (cs.take i0) + 1 from Nat.add_comm _ _,
          List.getD_cons_succ]
        exact ih i0 L hnl
      · rw [if_neg hc, Nat.zero_add]
        cases hsp : splitNl cs with
        | nil => exact absurd hsp (splitNl_ne_nil cs)
        | cons l ls =>
          rw [splitNl_cons_other c cs l ls hc hsp]
          obtain ⟨pre, post, hdec⟩ := ih i0 L hnl
          rw [hsp] at hdec
          cases hcnt : countNl (cs.take i0) with
          | zero =>
            rw [hcnt, List.getD_cons_zero] at hdec
            exact ⟨c :: pre, post, by simp [List.getD_cons_zero, hdec]⟩
          | succ k =>
            rw [hcnt, List.getD_cons_succ] at hdec
            exact ⟨pre, post, by simpa [List.getD_cons_succ] using hdec⟩

/-- C6 counterexample: a function-declaration match may span several lines
(its parameter list contains a newline); the finding's reported line is the
line of the match's start, and that line does not contain the matched text. -/
theorem finding_line_misses_matched_text :
    functionMatches bufMultiline =
      [(0, ⟨16, some ("f".toList), some ("\na".toList), none⟩)] ∧
    lineOf bufMultiline 0 = 1 ∧
    containsSub (nthLine bufMultiline 1) (slice bufMultiline 0 16) = false := by decide

/-- C6 (amended): a match always begins on its reported line, so whenever
the matched text contains no newline, the substring of the buffer on the
finding's reported 1-based line contains the finding's matched text. -/
theorem finding_line_contains_matched_text (s : List Char) (i : Nat) (mt : FMatch)
    (hm : (i, mt) ∈ functionMatches s)
    (hnl : ∀ c ∈ slice s i mt.len, c ≠ '\n') :
    containsSub (nthLine s (lineOf s i)) (slice s i mt.len) = true := by
  obtain ⟨pre, post, hdec⟩ := slice_in_line s i mt.len hnl
  rw [nthLine, lineOf, Nat.add_sub_cancel_left, containsSub_iff]
  exact ⟨pre, post, hdec⟩

/-- Witness for `finding_line_contains_matched_text` at the single-line
declaration `function f(a) {` (its own match, no newline inside). -/
theorem finding_line_contains_matched_text_witness :
    ((0, (⟨15, some ("f".toList), some ("a".toList), none⟩ : FMatch)) ∈
        functionMatches bufSingleLine) ∧
      containsSub (nthLine bufSingleLine (lineOf bufSingleLine 0))
        (slice bufSingleLine 0 15) = true :=
  ⟨by decide,
    finding_line_contains_matched_text bufSingleLine 0
      ⟨15, some ("f".toList), some ("a".toList), none⟩ (by decide) (by decide)⟩

/-! ### Branch-density monotonicity under appending

The scan count of each decision-point matcher never decreases when the
buffer is extended on the right.  The master lemma works for any matcher
satisfying two transfer conditions: a match inside `s` survives the
extension (possibly growing when it ended exactly at the old end, as with a
trailing greedy `\s+`), and a position that fails in `s` either still fails
in `s ++ t` or is a position after which `s` has no matches at all (the
failure consumed the whole tail of `s`). -/

/-- Helper: scanning from a position at or past the end counts nothing. -/
theorem countAux_of_ge (m : SMatcher) (s : List Char) (fuel i : Nat)
    (h : s.length ≤ i) : countAux m s fuel i = 0 := by
  cases fuel with
  | zero => rfl
  | succ f => simp [countAux, Nat.not_lt.mpr h]

/-- Helper: if the matcher fails everywhere from `i` on, the count from `i`
is zero. -/
theorem countAux_zero_of_none (m : SMatcher) (s : List Char) :
    ∀ fuel i, (∀ j, i ≤ j → j < s.length → m s j = none) →
      countAux m s fuel i = 0 := by
  intro fuel
  induction fuel with
  | zero => intro i _; rfl
  | succ f ih =>
    intro i h
    unfold countAux
    by_cases hib : i < s.length
    · rw [if_pos hib, h i (Nat.le_refl _) hib]
      exact ih (i + 1) (fun j h1 h2 => h j (by omega) h2)
    · rw [if_neg hib]

/-- Helper: the fueled count is monotone in the fuel. -/
theorem countAux_fuel_mono (m : SMatcher) (s : List Char) :
    ∀ f1 f2 i, f1 ≤ f2 → countAux m s f1 i ≤ countAux m s f2 i := by
  intro f1
  induction f1 with
  | zero => intro f2 i _; exact Nat.zero_le _
  | succ f ih =>
    intro f2 i hle
    cases f2 with
    | zero => omega
    | succ f2' =>
      unfold countAux
      by_cases hib : i < s.length
      · rw [if_pos hib, if_pos hib]
        cases m s i with
        | some L => exact Nat.add_le_add_left (ih f2' _ (by omega)) 1
        | none => exact ih f2' _ (by omega)
      · rw [if_neg hib, if_neg hib]

/-- Helper (master lemma): under the two transfer conditions, the match
count does not decrease when `t` is appended, at every fuel and start
position. -/
theorem countAux_append_mono (m : SMatcher) (s t : List Char)
    (HA : ∀ i L, i < s.length → m s i = some L →
      i + L ≤ s.length ∧ ∃ L2, m (s ++ t) i = some L2 ∧ L ≤ L2 ∧
        (i + L < s.length → L2 = L))
    (HB : ∀ i, i < s.length → m s i = none →
      m (s ++ t) i = none ∨ ∀ j, i < j → j < s.length → m s j = none) :
    ∀ fuel i, countAux m s fuel i ≤ countAux m (s ++ t) fuel i := by
  intro fuel
  induction fuel with
  | zero => intro i; exact Nat.le_refl 0
  | succ f ih =>
    intro i
    by_cases hib : i < s.length
    · have hib2 : i < (s ++ t).length := by
        rw [List.length_append]; omega
      cases hm : m s i with
      | some L =>
        obtain ⟨hiL, L2, hm2, hL2, hlt⟩ := HA i L hib hm
        unfold countAux
        rw [if_pos hib, if_pos hib2]
        simp only [hm, hm2]
        by_cases hend : i + L < s.length
        · rw [hlt hend]
          exact Nat.add_le_add_left (ih _) 1
        · have hLpos : 1 ≤ L := by
            by_contra hc
            have : L = 0 := by omega
            omega
          have hz : countAux m s f (i + max L 1) = 0 :=
            countAux_of_ge m s f _ (by omega)
          rw [hz]
          omega
      | none =>
        rcases HB i hib hm with hm2 | hall
        · unfold countAux
          rw [if_pos hib, if_pos hib2]
          simp only [hm, hm2]
          exact ih _
        · have hz : countAux m s (f + 1) i = 0 := by
            apply countAux_zero_of_none
            intro j h1 h2
            rcases Nat.eq_or_lt_of_le h1 with hk | hk
            · rw [← hk]; exact hm
            · exact hall j hk h2
          rw [hz]
          exact Nat.zero_le _
    · rw [countAux_of_ge m s _ i (by omega)]
      exact Nat.zero_le _

/-- Helper: the per-buffer count never decreases when text is appended, for
any matcher satisfying the transfer conditions. -/
theorem count_append_mono_of (m : SMatcher) (s t : List Char)
    (HA : ∀ i L, i < s.length → m s i = some L →
      i + L ≤ s.length ∧ ∃ L2, m (s ++ t) i = some L2 ∧ L ≤ L2 ∧
        (i + L < s.length → L2 = L))
    (HB : ∀ i, i < s.length → m s i = none →
      m (s ++ t) i = none ∨ ∀ j, i < j → j < s.length → m s j = none) :
    count m s ≤ count m (s ++ t) := by
  rw [count, count]
  calc countAux m s s.length 0 ≤ countAux m (s ++ t) s.length 0 :=
        countAux_append_mono m s t HA HB s.length 0
    _ ≤ countAux m (s ++ t) (s ++ t).length 0 :=
        countAux_fuel_mono m (s ++ t) _ _ 0 (by simp)

/-! ### Transfer toolbox for the individual matchers -/

/-- Helper: in-bounds positions have a character. -/
theorem charAt_isSome (s : List Char) (i : Nat) (h : i < s.length) :
    ∃ c, charAt s i = some c := by
  cases hc : charAt s i with
  | none =>
    rw [charAt, List.get?_eq_none] at hc
    omega
  | some c => exact ⟨c, rfl⟩

/-- Helper: reading each character of a matched literal. -/
theorem litAt_char (s : List Char) (w : List Char) :
    ∀ i, litAt s i w = true → ∀ k, (hk : k < w.length) →
      charAt s (i + k) = some (w.get ⟨k, hk⟩) := by
  induction w with
  | nil => intro i _ k hk; simp at hk
  | cons c cs ih =>
    intro i h k hk
    simp only [litAt, Bool.and_eq_true, decide_eq_true_eq] at h
    cases k with
    | zero => simpa using h.1
    | succ k0 =>
      have := ih (i + 1) h.2 k0 (by simpa using Nat.lt_of_succ_lt_succ hk)
      simpa [Nat.add_comm, Nat.add_assoc, Nat.add_left_comm] using this

/-- Helper: a literal match survives appending on the right. -/
theorem litAt_append_mono (t : List Char) (s : List Char) (w : List Char) :
    ∀ i, litAt s i w = true → litAt (s ++ t) i w = true := by
  induction w with
  | nil => intro i _; rfl
  | cons c cs ih =>
    intro i h
    simp only [litAt, Bool.and_eq_true, decide_eq_true_eq] at h ⊢
    exact ⟨by rw [charAt_append s t i (charAt_lt s i c h.1)]; exact h.1, ih (i + 1) h.2⟩

/-- Helper: a bounded literal test is unchanged by appending. -/
theorem litAt_append_eq (t : List Char) (s : List Char) (w : List Char) :
    ∀ i, i + w.length ≤ s.length → litAt (s ++ t) i w = litAt s i w := by
  induction w with
  | nil => intro i _; rfl
  | cons c cs ih =>
    intro i hb
    simp only [litAt]
    rw [charAt_append s t i (by simp at hb; omega), ih (i + 1) (by simp at hb ⊢; omega)]

/-- Helper: introduction form for `firstPos` — the first witness. -/
theorem firstPos_unique (p : Nat → Bool) (bound i j : Nat)
    (h1 : i ≤ j) (h2 : j < bound) (h3 : p j = true)
    (h4 : ∀ k, i ≤ k → k < j → p k = false) :
    firstPos p bound i = some j := by
  cases hfp : firstPos p bound i with
  | none => exact absurd ((firstPos_none_iff p bound i).mp hfp j h1 h2) (by simp [h3])
  | some j2 =>
    obtain ⟨hj1, hj2, hj3, hj4⟩ := firstPos_some_spec p bound i j2 hfp
    congr
    rcases Nat.lt_trichotomy j2 j with hlt | heq | hgt
    · exact absurd (h4 j2 hj1 hlt) (by simp [hj3])
    · exact heq
    · exact absurd (hj4 j h1 hgt) (by simp [h3])

/-- Helper: the run end never passes the end of the buffer. -/
theorem runEnd_le (q : Char → Bool) (s : List Char) (i : Nat) :
    runEnd q s i ≤ s.length := by
  rw [runEnd]
  cases hfp : firstPos (fun j => !((charAt s j).any q)) s.length i with
  | none => exact Nat.le_refl _
  | some j => exact Nat.le_of_lt (firstPos_some_spec _ _ _ _ hfp).2.1

/-- Helper: the run end does not move backwards (from an in-bounds start). -/
theorem runEnd_ge (q : Char → Bool) (s : List Char) (i : Nat) (h : i ≤ s.length) :
    i ≤ runEnd q s i := by
  rw [runEnd]
  cases hfp : firstPos (fun j => !((charAt s j).any q)) s.length i with
  | none => exact h
  | some j => exact (firstPos_some_spec _ _ _ _ hfp).1

/-- Helper: every character strictly inside the run satisfies `q`. -/
theorem runEnd_chars (q : Char → Bool) (s : List Char) (i : Nat) :
    ∀ k, i ≤ k → k < runEnd q s i → (charAt s k).any q = true := by
  intro k h1 h2
  rw [runEnd] at h2
  cases hfp : firstPos (fun j => !((charAt s j).any q)) s.length i with
  | none =>
    rw [hfp] at h2
    have := (firstPos_none_iff (fun j => !((charAt s j).any q)) s.length i).mp hfp k h1 h2
    simpa using this
  | some j =>
    rw [hfp] at h2
    have := (firstPos_some_spec _ _ _ _ hfp).2.2.2 k h1 h2
    simpa using this

/-- Helper: the character at an in-bounds run end fails `q`. -/
theorem runEnd_stop (q : Char → Bool) (s : List Char) (i : Nat)
    (h : runEnd q s i < s.length) : (charAt s (runEnd q s i)).any q = false := by
  cases hfp : firstPos (fun j => !((charAt s j).any q)) s.length i with
  | none =>
    simp only [runEnd, hfp] at h
    exact absurd h (Nat.lt_irrefl _)
  | some j =>
    simp only [runEnd, hfp]
    have hj := (firstPos_some_spec _ _ _ _ hfp).2.2.1
    simpa using hj

/-- Helper: an in-bounds run end is unchanged by appending. -/
theorem runEnd_append_of_lt (q : Char → Bool) (s t : List Char) (i : Nat)
    (hi : i ≤ s.length) (h : runEnd q s i < s.length) :
    runEnd q (s ++ t) i = runEnd q s i := by
  have hstop := runEnd_stop q s i h
  have hchars := runEnd_chars q s i
  have hge := runEnd_ge q s i hi
  have huniq : firstPos (fun j => !((charAt (s ++ t) j).any q)) (s ++ t).length i =
      some (runEnd q s i) := by
    apply firstPos_unique _ _ i (runEnd q s i) hge
      (by rw [List.length_append]; omega)
    · rw [charAt_append s t _ h, hstop]
      rfl
    · intro k h1 h2
      rw [charAt_append s t k (by omega), hchars k h1 h2]
      rfl
  simp only [runEnd, huniq]

/-- Helper: the run end never shrinks when appending. -/
theorem runEnd_append_ge (q : Char → Bool) (s t : List Char) (i : Nat)
    (hi : i ≤ s.length) : runEnd q s i ≤ runEnd q (s ++ t) i := by
  by_contra hc
  push_neg at hc
  have h2 : runEnd q (s ++ t) i < s.length := Nat.lt_of_lt_of_le hc (runEnd_le q s i)
  have h3 : i ≤ runEnd q (s ++ t) i :=
    runEnd_ge q (s ++ t) i (by rw [List.length_append]; omega)
  have h4 := runEnd_stop q (s ++ t) i
    (by rw [List.length_append]; omega)
  rw [charAt_append s t _ h2] at h4
  have h5 := runEnd_chars q s i (runEnd q (s ++ t) i) h3 hc
  rw [h5] at h4
  exact Bool.noConfusion h4

/-- Helper: a found character index is unchanged by appending. -/
theorem indexOfFrom_append_some (s t : List Char) (c : Char) (i k : Nat)
    (h : indexOfFrom s c i = some k) : indexOfFrom (s ++ t) c i = some k := by
  rw [indexOfFrom] at h ⊢
  obtain ⟨h1, h2, h3, h4⟩ := firstPos_some_spec _ _ _ _ h
  rw [show (s ++ t).length = s.length + t.length from List.length_append s t]
  apply firstPos_unique _ _ i k h1 (by omega)
  · rw [charAt_append s t k h2]
    exact h3
  · intro j hj1 hj2
    rw [charAt_append s t j (by omega)]
    exact h4 j hj1 hj2

/-- Helper: an absent character stays absent inside the old bounds. -/
theorem indexOfFrom_none_spec (s : List Char) (c : Char) (i : Nat)
    (h : indexOfFrom s c i = none) :
    ∀ k, i ≤ k → k < s.length → charAt s k ≠ some c := by
  intro k h1 h2 hc
  have := (firstPos_none_iff _ _ _).mp h k h1 h2
  rw [hc] at this
  simp at this

/-- Helper: the word-boundary test is unchanged by appending. -/
theorem prevNonWord_append (s t : List Char) (i : Nat) (hi : i ≤ s.length) :
    prevNonWord (s ++ t) i = prevNonWord s i := by
  cases i with
  | zero => rfl
  | succ k => rw [prevNonWord, prevNonWord, charAt_append s t k (by omega)]

theorem skipSpaces_le (s : List Char) (i : Nat) : skipSpaces s i ≤ s.length :=
  runEnd_le isSpace s i

theorem skipSpaces_ge (s : List Char) (i : Nat) (h : i ≤ s.length) :
    i ≤ skipSpaces s i :=
  runEnd_ge isSpace s i h

theorem skipSpaces_chars (s : List Char) (i k : Nat) (h1 : i ≤ k)
    (h2 : k < skipSpaces s i) : (charAt s k).any isSpace = true :=
  runEnd_chars isSpace s i k h1 h2

theorem skipSpaces_stop (s : List Char) (i : Nat) (h : skipSpaces s i < s.length) :
    (charAt s (skipSpaces s i)).any isSpace = false :=
  runEnd_stop isSpace s i h

theorem skipSpaces_append_of_lt (s t : List Char) (i : Nat) (hi : i ≤ s.length)
    (h : skipSpaces s i < s.length) : skipSpaces (s ++ t) i = skipSpaces s i :=
  runEnd_append_of_lt isSpace s t i hi h

theorem skipSpaces_append_ge (s t : List Char) (i : Nat) (hi : i ≤ s.length) :
    skipSpaces s i ≤ skipSpaces (s ++ t) i :=
  runEnd_append_ge isSpace s t i hi

/-- Helper: a nonempty literal match gives its in-bounds span. -/
theorem litAt_bound (s w : List Char) (i : Nat) (hne : w ≠ [])
    (h : litAt s i w = true) : i + w.length ≤ s.length := by
  rcases (litAt_slice s w i h).2 with hnil | hb
  · exact absurd hnil hne
  · exact hb

/-- Helper (HA for the `\b<kw>\s*\(` shape): a match survives appending,
with the same length. -/
theorem matchKwParen_append_HA (kw : List Char) (hne : kw ≠ []) (s t : List Char)
    (i L : Nat) (_hi : i < s.length) (h : matchKwParen kw s i = some L) :
    i + L ≤ s.length ∧ ∃ L2, matchKwParen kw (s ++ t) i = some L2 ∧ L ≤ L2 ∧
      (i + L < s.length → L2 = L) := by
  simp only [matchKwParen] at h
  by_cases hcond : (prevNonWord s i && litAt s i kw) = true
  · rw [if_pos hcond] at h
    by_cases hch : charAt s (skipSpaces s (i + kw.length)) = some '('
    · rw [if_pos hch] at h
      have hL : L = skipSpaces s (i + kw.length) + 1 - i := (Option.some_inj.mp h).symm
      rw [Bool.and_eq_true] at hcond
      obtain ⟨hprev, hlit⟩ := hcond
      have hbound : i + kw.length ≤ s.length := litAt_bound s kw i hne hlit
      have hjlt : skipSpaces s (i + kw.length) < s.length := charAt_lt _ _ _ hch
      have hjge : i + kw.length ≤ skipSpaces s (i + kw.length) :=
        skipSpaces_ge s _ (by omega)
      have hm2 : matchKwParen kw (s ++ t) i = some L := by
        simp only [matchKwParen]
        rw [if_pos, skipSpaces_append_of_lt s t _ (by omega) hjlt]
        · rw [if_pos (by rw [charAt_append s t _ hjlt]; exact hch), hL]
        · rw [prevNonWord_append s t i (by omega), hprev,
            litAt_append_mono t s kw i hlit]
          rfl
      exact ⟨by omega, L, hm2, Nat.le_refl _, fun _ => rfl⟩
    · rw [if_neg hch] at h
      exact Option.noConfusion h
  · rw [if_neg hcond] at h
    exact Option.noConfusion h

/-- Helper (HB for the `\b<kw>\s*\(` shape): a failing position either still
fails after appending, or nothing matches in the rest of `s` (the failure
ran into the end of the buffer: a keyword cut off by it, or a whitespace run
reaching it — a later match would need a keyword character inside that
whitespace or beyond the end). -/
theorem matchKwParen_append_HB (kw : List Char) (hne : kw ≠ [])
    (hns : ∀ c ∈ kw, isSpace c = false) (s t : List Char) (i : Nat)
    (_hi : i < s.length) (h : matchKwParen kw s i = none) :
    matchKwParen kw (s ++ t) i = none ∨
      ∀ j, i < j → j < s.length → matchKwParen kw s j = none := by
  by_cases hcond : (prevNonWord s i && litAt s i kw) = true
  · have hcond2 := hcond
    rw [Bool.and_eq_true] at hcond2
    obtain ⟨hprev, hlit⟩ := hcond2
    have hbound : i + kw.length ≤ s.length := litAt_bound s kw i hne hlit
    simp only [matchKwParen, if_pos hcond] at h
    by_cases hch : charAt s (skipSpaces s (i + kw.length)) = some '('
    · rw [if_pos hch] at h
      exact Option.noConfusion h
    · by_cases hjlt : skipSpaces s (i + kw.length) < s.length
      · left
        simp only [matchKwParen]
        rw [if_pos, skipSpaces_append_of_lt s t _ (by omega) hjlt, if_neg]
        · rw [charAt_append s t _ hjlt]
          exact hch
        · rw [prevNonWord_append s t i (by omega), hprev,
            litAt_append_mono t s kw i hlit]
          rfl
      · right
        have hjeq : skipSpaces s (i + kw.length) = s.length := by
          have := skipSpaces_le s (i + kw.length)
          omega
        intro j hj1 hj2
        simp only [matchKwParen]
        rw [if_neg]
        intro hcc
        rw [Bool.and_eq_true] at hcc
        obtain ⟨_, hlitj⟩ := hcc
        have hbj : j + kw.length ≤ s.length := litAt_bound s kw j hne hlitj
        have hkpos : 1 ≤ kw.length := by
          cases kw with
          | nil => exact absurd rfl hne
          | cons a as => simp
        have hklt : kw.length - 1 < kw.length := by omega
        have hcharj := litAt_char s kw j hlitj (kw.length - 1) hklt
        have hsp := skipSpaces_chars s (i + kw.length) (j + (kw.length - 1))
          (by omega) (by omega)
        rw [hcharj] at hsp
        have hfalse := hns (kw.get ⟨kw.length - 1, hklt⟩) (List.get_mem kw _ _)
        have htrue : isSpace (kw.get ⟨kw.length - 1, hklt⟩) = true := hsp
        rw [hfalse] at htrue
        exact Bool.noConfusion htrue
  · by_cases hprev : prevNonWord s i = true
    · have hlit : litAt s i kw = false := by
        cases hl : litAt s i kw with
        | false => rfl
        | true => exact absurd (by rw [hprev, hl]; rfl) hcond
      by_cases hlim : i + kw.length ≤ s.length
      · left
        simp only [matchKwParen]
        rw [if_neg]
        intro hcc
        rw [Bool.and_eq_true] at hcc
        obtain ⟨_, hlit2⟩ := hcc
        rw [litAt_append_eq t s kw i hlim, hlit] at hlit2
        exact Bool.noConfusion hlit2
      · right
        intro j hj1 hj2
        simp only [matchKwParen]
        rw [if_neg]
        intro hcc
        rw [Bool.and_eq_true] at hcc
        obtain ⟨_, hlitj⟩ := hcc
        have := litAt_bound s kw j hne hlitj
        omega
    · left
      simp only [matchKwParen]
      rw [if_neg]
      intro hcc
      rw [Bool.and_eq_true] at hcc
      obtain ⟨hprev2, _⟩ := hcc
      rw [prevNonWord_append s t i (by omega)] at hprev2
      exact hprev (by rw [hprev2])

/-- Helper (HA for `\bcase\s+`): a match survives appending; it can only
grow, and only when its whitespace run reached the end of the buffer. -/
theorem matchCaseKw_append_HA (s t : List Char) (i L : Nat) (_hi : i < s.length)
    (h : matchCaseKw s i = some L) :
    i + L ≤ s.length ∧ ∃ L2, matchCaseKw (s ++ t) i = some L2 ∧ L ≤ L2 ∧
      (i + L < s.length → L2 = L) := by
  simp only [matchCaseKw] at h
  by_cases hcond : (prevNonWord s i && litAt s i kwCase) = true
  · rw [if_pos hcond] at h
    by_cases hj : i + 4 < skipSpaces s (i + 4)
    · rw [if_pos hj] at h
      have hL : L = skipSpaces s (i + 4) - i := (Option.some_inj.mp h).symm
      have hcond2 := hcond
      rw [Bool.and_eq_true] at hcond2
      obtain ⟨hprev, hlit⟩ := hcond2
      have hbound : i + 4 ≤ s.length := litAt_bound s kwCase i (by decide) hlit
      have hle := skipSpaces_le s (i + 4)
      have hprev2 : prevNonWord (s ++ t) i = true := by
        rw [prevNonWord_append s t i (by omega)]
        exact hprev
      have hlit2 := litAt_append_mono t s kwCase i hlit
      have hge2 : skipSpaces s (i + 4) ≤ skipSpaces (s ++ t) (i + 4) :=
        skipSpaces_append_ge s t _ (by omega)
      refine ⟨by omega, skipSpaces (s ++ t) (i + 4) - i, ?_, by omega, ?_⟩
      · simp only [matchCaseKw]
        rw [if_pos (by rw [hprev2, hlit2]; rfl), if_pos (by omega)]
      · intro hlt
        have heq : skipSpaces (s ++ t) (i + 4) = skipSpaces s (i + 4) :=
          skipSpaces_append_of_lt s t _ (by omega) (by omega)
        omega
    · rw [if_neg hj] at h
      exact Option.noConfusion h
  · rw [if_neg hcond] at h
    exact Option.noConfusion h

/-- Helper (HB for `\bcase\s+`): a failing position either still fails
after appending, or `case` was cut off by (or its whitespace probe sat at)
the end of the buffer, after which nothing in `s` can match. -/
theorem matchCaseKw_append_HB (s t : List Char) (i : Nat) (_hi : i < s.length)
    (h : matchCaseKw s i = none) :
    matchCaseKw (s ++ t) i = none ∨
      ∀ j, i < j → j < s.length → matchCaseKw s j = none := by
  by_cases hcond : (prevNonWord s i && litAt s i kwCase) = true
  · have hcond2 := hcond
    rw [Bool.and_eq_true] at hcond2
    obtain ⟨hprev, hlit⟩ := hcond2
    have hbound : i + 4 ≤ s.length := litAt_bound s kwCase i (by decide) hlit
    simp only [matchCaseKw, if_pos hcond] at h
    by_cases hj : i + 4 < skipSpaces s (i + 4)
    · rw [if_pos hj] at h
      exact Option.noConfusion h
    · have hge := skipSpaces_ge s (i + 4) (by omega)
      have hjeq : skipSpaces s (i + 4) = i + 4 := by omega
      by_cases hlt : i + 4 < s.length
      · left
        simp only [matchCaseKw]
        rw [if_pos, if_neg]
        · have heq : skipSpaces (s ++ t) (i + 4) = skipSpaces s (i + 4) :=
            skipSpaces_append_of_lt s t (i + 4) (by omega) (by omega)
          omega
        · rw [prevNonWord_append s t i (by omega), hprev,
            litAt_append_mono t s kwCase i hlit]
          rfl
      · right
        intro j hj1 hj2
        simp only [matchCaseKw]
        rw [if_neg]
        intro hcc
        rw [Bool.and_eq_true] at hcc
        obtain ⟨_, hlitj⟩ := hcc
        have := litAt_bound s kwCase j (by decide) hlitj
        have h4 : kwCase.length = 4 := by decide
        omega
  · by_cases hprev : prevNonWord s i = true
    · have hlit : litAt s i kwCase = false := by
        cases hl : litAt s i kwCase with
        | false => rfl
        | true => exact absurd (by rw [hprev, hl]; rfl) hcond
      by_cases hlim : i + 4 ≤ s.length
      · left
        simp only [matchCaseKw]
        rw [if_neg]
        intro hcc
        rw [Bool.and_eq_true] at hcc
        obtain ⟨_, hlit2⟩ := hcc
        rw [show (4 : Nat) = kwCase.length from by decide] at hlim
        rw [litAt_append_eq t s kwCase i hlim, hlit] at hlit2
        exact Bool.noConfusion hlit2
      · right
        intro j hj1 hj2
        simp only [matchCaseKw]
        rw [if_neg]
        intro hcc
        rw [Bool.and_eq_true] at hcc
        obtain ⟨_, hlitj⟩ := hcc
        have := litAt_bound s kwCase j (by decide) hlitj
        have h4 : kwCase.length = 4 := by decide
        omega
    · left
      simp only [matchCaseKw]
      rw [if_neg]
      intro hcc
      rw [Bool.and_eq_true] at hcc
      obtain ⟨hprev2, _⟩ := hcc
      rw [prevNonWord_append s t i (by omega)] at hprev2
      exact hprev (by rw [hprev2])

/-- Helper: elimination form of `indexOfFrom`. -/
theorem indexOfFrom_some_spec (s : List Char) (c : Char) (i k : Nat)
    (h : indexOfFrom s c i = some k) :
    i ≤ k ∧ k < s.length ∧ charAt s k = some c := by
  obtain ⟨h1, h2, h3, _⟩ := firstPos_some_spec _ _ _ _ h
  exact ⟨h1, h2, of_decide_eq_true h3⟩

/-- Helper (HA for the ternary pattern): a match — which always ends at the
first colon after its `?` — survives appending with the same length. -/
theorem matchTernary_append_HA (s t : List Char) (i L : Nat) (hi : i < s.length)
    (h : matchTernary s i = some L) :
    i + L ≤ s.length ∧ ∃ L2, matchTernary (s ++ t) i = some L2 ∧ L ≤ L2 ∧
      (i + L < s.length → L2 = L) := by
  simp only [matchTernary] at h
  by_cases hq : charAt s i = some '?'
  · rw [if_pos hq] at h
    cases hk : indexOfFrom s ':' (i + 1) with
    | none =>
      simp only [hk] at h
      exact Option.noConfusion h
    | some k =>
      simp only [hk] at h
      by_cases hik : i + 2 ≤ k
      · rw [if_pos hik] at h
        have hL : L = k + 1 - i := (Option.some_inj.mp h).symm
        obtain ⟨_, hklt, _⟩ := indexOfFrom_some_spec s ':' (i + 1) k hk
        have hm2 : matchTernary (s ++ t) i = some L := by
          simp only [matchTernary]
          rw [if_pos (by rw [charAt_append s t i hi]; exact hq),
            indexOfFrom_append_some s t ':' (i + 1) k hk]
          simp only [if_pos hik, hL]
        exact ⟨by omega, L, hm2, Nat.le_refl _, fun _ => rfl⟩
      · rw [if_neg hik] at h
        exact Option.noConfusion h
  · rw [if_neg hq] at h
    exact Option.noConfusion h

/-- Helper (HB for the ternary pattern): a failing position either still
fails after appending, or there was no colon left in `s`, in which case no
later `?` of `s` can match either. -/
theorem matchTernary_append_HB (s t : List Char) (i : Nat) (hi : i < s.length)
    (h : matchTernary s i = none) :
    matchTernary (s ++ t) i = none ∨
      ∀ j, i < j → j < s.length → matchTernary s j = none := by
  by_cases hq : charAt s i = some '?'
  · simp only [matchTernary, if_pos hq] at h
    cases hk : indexOfFrom s ':' (i + 1) with
    | some k =>
      simp only [hk] at h
      by_cases hik : i + 2 ≤ k
      · rw [if_pos hik] at h
        exact Option.noConfusion h
      · left
        simp only [matchTernary]
        rw [if_pos (by rw [charAt_append s t i hi]; exact hq),
          indexOfFrom_append_some s t ':' (i + 1) k hk]
        simp only [if_neg hik]
    | none =>
      right
      intro j hj1 hj2
      simp only [matchTernary]
      by_cases hqj : charAt s j = some '?'
      · rw [if_pos hqj]
        have hnone : indexOfFrom s ':' (j + 1) = none := by
          rw [indexOfFrom]
          apply (firstPos_none_iff _ _ _).mpr
          intro p hp1 hp2
          have := indexOfFrom_none_spec s ':' (i + 1) hk p (by omega) hp2
          simpa using this
        simp only [hnone]
      · rw [if_neg hqj]
  · left
    simp only [matchTernary]
    rw [if_neg (by rw [charAt_append s t i hi]; exact hq)]

/-- Helper (HA for the doubled-literal patterns `&&` and `\|\|`): a match is
rigid and survives appending. -/
theorem matchLit2_append_HA (c : Char) (s t : List Char) (i L : Nat)
    (hi : i < s.length) (h : matchLit2 c s i = some L) :
    i + L ≤ s.length ∧ ∃ L2, matchLit2 c (s ++ t) i = some L2 ∧ L ≤ L2 ∧
      (i + L < s.length → L2 = L) := by
  simp only [matchLit2] at h
  by_cases hcond : (charAt s i = some c && charAt s (i + 1) = some c) = true
  · rw [if_pos hcond] at h
    have hL : L = 2 := (Option.some_inj.mp h).symm
    have hcond2 := hcond
    rw [Bool.and_eq_true] at hcond2
    obtain ⟨h1, h2⟩ := hcond2
    have h1c := of_decide_eq_true h1
    have h2c := of_decide_eq_true h2
    have hlt2 : i + 1 < s.length := charAt_lt s (i + 1) c h2c
    have hm2 : matchLit2 c (s ++ t) i = some 2 := by
      simp only [matchLit2]
      rw [if_pos]
      rw [Bool.and_eq_true]
      constructor
      · rw [charAt_append s t i hi]
        exact decide_eq_true h1c
      · rw [charAt_append s t (i + 1) hlt2]
        exact decide_eq_true h2c
    exact ⟨by omega, 2, by rw [hL]; exact ⟨hm2, Nat.le_refl _, fun _ => rfl⟩⟩
  · rw [if_neg hcond] at h
    exact Option.noConfusion h

/-- Helper (HB for the doubled-literal patterns): a failing position either
still fails after appending, or it was the last position of `s` (a single
trailing `c`), after which there is nothing left in `s` to match. -/
theorem matchLit2_append_HB (c : Char) (s t : List Char) (i : Nat)
    (hi : i < s.length) (h : matchLit2 c s i = none) :
    matchLit2 c (s ++ t) i = none ∨
      ∀ j, i < j → j < s.length → matchLit2 c s j = none := by
  by_cases h1 : charAt s i = some c
  · by_cases hlt : i + 1 < s.length
    · left
      have h2 : charAt s (i + 1) ≠ some c := by
        intro hc
        simp only [matchLit2] at h
        rw [if_pos] at h
        · exact Option.noConfusion h
        · rw [Bool.and_eq_true]
          exact ⟨decide_eq_true h1, decide_eq_true hc⟩
      simp only [matchLit2]
      rw [if_neg]
      intro hcc
      rw [Bool.and_eq_true] at hcc
      obtain ⟨_, hc2⟩ := hcc
      rw [charAt_append s t (i + 1) hlt] at hc2
      exact h2 (of_decide_eq_true hc2)
    · right
      intro j hj1 hj2
      exact absurd hj2 (by omega)
  · left
    simp only [matchLit2]
    rw [if_neg]
    intro hcc
    rw [Bool.and_eq_true] at hcc
    obtain ⟨hc1, _⟩ := hcc
    rw [charAt_append s t i hi] at hc1
    exact h1 (of_decide_eq_true hc1)

/-- Helper: if every buffer position from `i + 4` on holds whitespace or a
character of `if`, then no position after `i` can start an
`\belse\s+if\s*\(` match — the last `e` of a later `else` would have to sit
there. -/
theorem matchElseIf_kill (s : List Char) (i : Nat)
    (hreg : ∀ p, i + 4 ≤ p → p < s.length →
      (charAt s p).any isSpace = true ∨ charAt s p = some 'i' ∨ charAt s p = some 'f') :
    ∀ j, i < j → j < s.length → matchElseIf s j = none := by
  intro j hj1 hj2
  simp only [matchElseIf]
  rw [if_neg]
  intro hcc
  rw [Bool.and_eq_true] at hcc
  obtain ⟨_, hlitj⟩ := hcc
  have h4 : kwElse.length = 4 := by decide
  have hbj : j + kwElse.length ≤ s.length := litAt_bound s kwElse j (by decide) hlitj
  have hchar : charAt s (j + 3) = some 'e' := by
    rw [litAt_char s kwElse j hlitj 3 (by decide)]
    decide
  rcases hreg (j + 3) (by omega) (by omega) with hsp | hi2 | hf2
  · rw [hchar] at hsp
    exact absurd hsp (by decide)
  · rw [hchar] at hi2
    exact absurd hi2 (by decide)
  · rw [hchar] at hf2
    exact absurd hf2 (by decide)

/-- Helper (HA for `\belse\s+if\s*\(`): a match survives appending with the
same length. -/
theorem matchElseIf_append_HA (s t : List Char) (i L : Nat) (_hi : i < s.length)
    (h : matchElseIf s i = some L) :
    i + L ≤ s.length ∧ ∃ L2, matchElseIf (s ++ t) i = some L2 ∧ L ≤ L2 ∧
      (i + L < s.length → L2 = L) := by
  simp only [matchElseIf] at h
  by_cases hcond : (prevNonWord s i && litAt s i kwElse) = true
  · rw [if_pos hcond] at h
    by_cases hinner :
        (decide (i + 4 < skipSpaces s (i + 4)) && litAt s (skipSpaces s (i + 4)) kwIf) = true
    · rw [if_pos hinner] at h
      by_cases hch :
          charAt s (skipSpaces s (skipSpaces s (i + 4) + 2)) = some '('
      · rw [if_pos hch] at h
        have hL : L = skipSpaces s (skipSpaces s (i + 4) + 2) + 1 - i :=
          (Option.some_inj.mp h).symm
        have hc2 := hcond
        rw [Bool.and_eq_true] at hc2
        obtain ⟨hprev, hlitE⟩ := hc2
        have hin2 := hinner
        rw [Bool.and_eq_true] at hin2
        obtain ⟨hj1d, hlitI⟩ := hin2
        have hj1lt := of_decide_eq_true hj1d
        have h4 : kwElse.length = 4 := by decide
        have hbound : i + 4 ≤ s.length := by
          have := litAt_bound s kwElse i (by decide) hlitE
          omega
        have h2 : kwIf.length = 2 := by decide
        have hboundI : skipSpaces s (i + 4) + 2 ≤ s.length := by
          have := litAt_bound s kwIf (skipSpaces s (i + 4)) (by decide) hlitI
          omega
        have hj3lt : skipSpaces s (skipSpaces s (i + 4) + 2) < s.length :=
          charAt_lt _ _ _ hch
        have hj3ge : skipSpaces s (i + 4) + 2 ≤ skipSpaces s (skipSpaces s (i + 4) + 2) :=
          skipSpaces_ge s _ (by omega)
        have hskip1 : skipSpaces (s ++ t) (i + 4) = skipSpaces s (i + 4) :=
          skipSpaces_append_of_lt s t _ (by omega) (by omega)
        have hskip3 : skipSpaces (s ++ t) (skipSpaces s (i + 4) + 2) =
            skipSpaces s (skipSpaces s (i + 4) + 2) :=
          skipSpaces_append_of_lt s t _ (by omega) hj3lt
        have hm2 : matchElseIf (s ++ t) i = some L := by
          simp only [matchElseIf]
          rw [if_pos, hskip1, if_pos, hskip3, if_pos]
          · rw [hL]
          · rw [charAt_append s t _ hj3lt]
            exact hch
          · rw [Bool.and_eq_true]
            exact ⟨hj1d, litAt_append_mono t s kwIf _ hlitI⟩
          · rw [Bool.and_eq_true]
            refine ⟨?_, litAt_append_mono t s kwElse i hlitE⟩
            rw [prevNonWord_append s t i (by omega)]
            exact hprev
        exact ⟨by omega, L, hm2, Nat.le_refl _, fun _ => rfl⟩
      · rw [if_neg hch] at h
        exact Option.noConfusion h
    · rw [if_neg hinner] at h
      exact Option.noConfusion h
  · rw [if_neg hcond] at h
    exact Option.noConfusion h

/-- Helper (HB for `\belse\s+if\s*\(`): a failing position either still
fails after appending, or the failure ran into the end of the buffer, in
which case the remaining tail of `s` is whitespace possibly followed by a
fragment of `if` and nothing later in `s` can match. -/
theorem matchElseIf_append_HB (s t : List Char) (i : Nat) (_hi : i < s.length)
    (h : matchElseIf s i = none) :
    matchElseIf (s ++ t) i = none ∨
      ∀ j, i < j → j < s.length → matchElseIf s j = none := by
  by_cases hcond : (prevNonWord s i && litAt s i kwElse) = true
  · have hc2 := hcond
    rw [Bool.and_eq_true] at hc2
    obtain ⟨hprev, hlitE⟩ := hc2
    have h4 : kwElse.length = 4 := by decide
    have hbound : i + 4 ≤ s.length := by
      have := litAt_bound s kwElse i (by decide) hlitE
      omega
    have hcondT : (prevNonWord (s ++ t) i && litAt (s ++ t) i kwElse) = true := by
      rw [Bool.and_eq_true]
      refine ⟨?_, litAt_append_mono t s kwElse i hlitE⟩
      rw [prevNonWord_append s t i (by omega)]
      exact hprev
    simp only [matchElseIf, if_pos hcond] at h
    by_cases hinner :
        (decide (i + 4 < skipSpaces s (i + 4)) && litAt s (skipSpaces s (i + 4)) kwIf) = true
    · rw [if_pos hinner] at h
      have hin2 := hinner
      rw [Bool.and_eq_true] at hin2
      obtain ⟨hj1d, hlitI⟩ := hin2
      have hj1lt := of_decide_eq_true hj1d
      have h2 : kwIf.length = 2 := by decide
      have hboundI : skipSpaces s (i + 4) + 2 ≤ s.length := by
        have := litAt_bound s kwIf (skipSpaces s (i + 4)) (by decide) hlitI
        omega
      have hj3ge : skipSpaces s (i + 4) + 2 ≤ skipSpaces s (skipSpaces s (i + 4) + 2) :=
        skipSpaces_ge s _ (by omega)
      have hj3le := skipSpaces_le s (skipSpaces s (i + 4) + 2)
      by_cases hch : charAt s (skipSpaces s (skipSpaces s (i + 4) + 2)) = some '('
      · rw [if_pos hch] at h
        exact Option.noConfusion h
      · by_cases hj3lt : skipSpaces s (skipSpaces s (i + 4) + 2) < s.length
        · left
          have hskip1 : skipSpaces (s ++ t) (i + 4) = skipSpaces s (i + 4) :=
            skipSpaces_append_of_lt s t _ (by omega) (by omega)
          have hskip3 : skipSpaces (s ++ t) (skipSpaces s (i + 4) + 2) =
              skipSpaces s (skipSpaces s (i + 4) + 2) :=
            skipSpaces_append_of_lt s t _ (by omega) hj3lt
          simp only [matchElseIf]
          rw [if_pos hcondT, hskip1, if_pos, hskip3, if_neg]
          · rw [charAt_append s t _ hj3lt]
            exact hch
          · rw [Bool.and_eq_true]
            exact ⟨hj1d, litAt_append_mono t s kwIf _ hlitI⟩
        · right
          have hj3eq : skipSpaces s (skipSpaces s (i + 4) + 2) = s.length := by omega
          apply matchElseIf_kill
          intro p hp1 hp2
          rcases Nat.lt_or_ge p (skipSpaces s (i + 4)) with hcase | hcase
          · exact Or.inl (skipSpaces_chars s (i + 4) p hp1 hcase)
          · rcases Nat.lt_or_ge p (skipSpaces s (i + 4) + 2) with hcase2 | hcase2
            · rcases Nat.eq_or_lt_of_le hcase with hp | hp
              · right
                left
                have := litAt_char s kwIf (skipSpaces s (i + 4)) hlitI 0 (by decide)
                simpa [← hp] using this
              · right
                right
                have hpe : p = skipSpaces s (i + 4) + 1 := by omega
                have := litAt_char s kwIf (skipSpaces s (i + 4)) hlitI 1 (by decide)
                rw [hpe]
                simpa using this
            · exact Or.inl (skipSpaces_chars s (skipSpaces s (i + 4) + 2) p hcase2
                (by omega))
    · rw [if_neg hinner] at h
      by_cases hj1lt : i + 4 < skipSpaces s (i + 4)
      · have hlitI : litAt s (skipSpaces s (i + 4)) kwIf = false := by
          cases hl : litAt s (skipSpaces s (i + 4)) kwIf with
          | false => rfl
          | true =>
            exact absurd (by rw [Bool.and_eq_true]; exact ⟨decide_eq_true hj1lt, hl⟩) hinner
        have hj1le := skipSpaces_le s (i + 4)
        have h2 : kwIf.length = 2 := by decide
        by_cases hb2 : skipSpaces s (i + 4) + 2 ≤ s.length
        · left
          have hskip1 : skipSpaces (s ++ t) (i + 4) = skipSpaces s (i + 4) :=
            skipSpaces_append_of_lt s t _ (by omega) (by omega)
          simp only [matchElseIf]
          rw [if_pos hcondT, hskip1, if_neg]
          intro hcc
          rw [Bool.and_eq_true] at hcc
          rw [litAt_append_eq t s kwIf (skipSpaces s (i + 4)) (by omega), hlitI] at hcc
          exact Bool.noConfusion hcc.2
        · by_cases hj1eq : skipSpaces s (i + 4) = s.length
          · right
            apply matchElseIf_kill
            intro p hp1 hp2
            exact Or.inl (skipSpaces_chars s (i + 4) p hp1 (by omega))
          · have hj1lt2 : skipSpaces s (i + 4) < s.length := by omega
            by_cases hji : charAt s (skipSpaces s (i + 4)) = some 'i'
            · right
              apply matchElseIf_kill
              intro p hp1 hp2
              rcases Nat.lt_or_ge p (skipSpaces s (i + 4)) with hcase | hcase
              · exact Or.inl (skipSpaces_chars s (i + 4) p hp1 hcase)
              · have hpe : p = skipSpaces s (i + 4) := by omega
                rw [hpe]
                exact Or.inr (Or.inl hji)
            · left
              have hskip1 : skipSpaces (s ++ t) (i + 4) = skipSpaces s (i + 4) :=
                skipSpaces_append_of_lt s t _ (by omega) hj1lt2
              simp only [matchElseIf]
              rw [if_pos hcondT, hskip1, if_neg]
              intro hcc
              rw [Bool.and_eq_true] at hcc
              have hchar0 := litAt_char (s ++ t) kwIf (skipSpaces s (i + 4)) hcc.2 0 (by decide)
              rw [Nat.add_zero, charAt_append s t _ hj1lt2] at hchar0
              exact hji (by rw [hchar0]; decide)
      · have hge := skipSpaces_ge s (i + 4) (by omega)
        have hj1eq : skipSpaces s (i + 4) = i + 4 := by omega
        by_cases hlt : i + 4 < s.length
        · left
          have hskip1 : skipSpaces (s ++ t) (i + 4) = skipSpaces s (i + 4) :=
            skipSpaces_append_of_lt s t _ (by omega) (by omega)
          simp only [matchElseIf]
          rw [if_pos hcondT, hskip1, if_neg]
          intro hcc
          rw [Bool.and_eq_true] at hcc
          have := of_decide_eq_true hcc.1
          omega
        · right
          intro j hj1 hj2
          simp only [matchElseIf]
          rw [if_neg]
          intro hcc
          rw [Bool.and_eq_true] at hcc
          have := litAt_bound s kwElse j (by decide) hcc.2
          omega
  · by_cases hprev : prevNonWord s i = true
    · have hlit : litAt s i kwElse = false := by
        cases hl : litAt s i kwElse with
        | false => rfl
        | true => exact absurd (by rw [hprev, hl]; rfl) hcond
      by_cases hlim : i + kwElse.length ≤ s.length
      · left
        simp only [matchElseIf]
        rw [if_neg]
        intro hcc
        rw [Bool.and_eq_true] at hcc
        rw [litAt_append_eq t s kwElse i hlim, hlit] at hcc
        exact Bool.noConfusion hcc.2
      · right
        intro j hj1 hj2
        simp only [matchElseIf]
        rw [if_neg]
        intro hcc
        rw [Bool.and_eq_true] at hcc
        have := litAt_bound s kwElse j (by decide) hcc.2
        omega
    · left
      simp only [matchElseIf]
      rw [if_neg]
      intro hcc
      rw [Bool.and_eq_true] at hcc
      obtain ⟨hprev2, _⟩ := hcc
      rw [prevNonWord_append s t i (by omega)] at hprev2
      exact hprev (by rw [hprev2])

/-- Helper: count monotonicity for the `\b<kw>\s*\(` patterns. -/
theorem count_kwParen_mono (kw : List Char) (hne : kw ≠ [])
    (hns : ∀ c ∈ kw, isSpace c = false) (s t : List Char) :
    count (matchKwParen kw) s ≤ count (matchKwParen kw) (s ++ t) :=
  count_append_mono_of _ s t
    (fun i L hi h => matchKwParen_append_HA kw hne s t i L hi h)
    (fun i hi h => matchKwParen_append_HB kw hne hns s t i hi h)

/-- Helper: count monotonicity for `\belse\s+if\s*\(`. -/
theorem count_elseIf_mono (s t : List Char) :
    count matchElseIf s ≤ count matchElseIf (s ++ t) :=
  count_append_mono_of _ s t
    (fun i L hi h => matchElseIf_append_HA s t i L hi h)
    (fun i hi h => matchElseIf_append_HB s t i hi h)

/-- Helper: count monotonicity for `\bcase\s+`. -/
theorem count_caseKw_mono (s t : List Char) :
    count matchCaseKw s ≤ count matchCaseKw (s ++ t) :=
  count_append_mono_of _ s t
    (fun i L hi h => matchCaseKw_append_HA s t i L hi h)
    (fun i hi h => matchCaseKw_append_HB s t i hi h)

/-- Helper: count monotonicity for the ternary pattern. -/
theorem count_ternary_mono (s t : List Char) :
    count matchTernary s ≤ count matchTernary (s ++ t) :=
  count_append_mono_of _ s t
    (fun i L hi h => matchTernary_append_HA s t i L hi h)
    (fun i hi h => matchTernary_append_HB s t i hi h)

/-- Helper: count monotonicity for the doubled-literal patterns. -/
theorem count_lit2_mono (c : Char) (s t : List Char) :
    count (matchLit2 c) s ≤ count (matchLit2 c) (s ++ t) :=
  count_append_mono_of _ s t
    (fun i L hi h => matchLit2_append_HA c s t i L hi h)
    (fun i hi h => matchLit2_append_HB c s t i hi h)

/-- C5 (amended): extending the buffer at its end — appending any text, in
particular one additional decision-point construct — never decreases the
branch-density score: every decision-point pattern's match count is
monotone under appending.  (Inserting a construct inside the buffer can
decrease the score; see the counterexample.) -/
theorem append_never_decreases_complexity (s t : List Char) :
    calculateComplexity s ≤ calculateComplexity (s ++ t) := by
  rw [calculateComplexity, calculateComplexity, foldl_add_count, foldl_add_count]
  simp only [decisionPatterns, List.map_cons, List.map_nil, List.sum_cons, List.sum_nil]
  have h1 := count_kwParen_mono kwIf (by decide) (by decide) s t
  have h2 := count_elseIf_mono s t
  have h3 := count_kwParen_mono kwFor (by decide) (by decide) s t
  have h4 := count_kwParen_mono kwWhile (by decide) (by decide) s t
  have h5 := count_kwParen_mono kwSwitch (by decide) (by decide) s t
  have h6 := count_caseKw_mono s t
  have h7 := count_kwParen_mono kwCatch (by decide) (by decide) s t
  have h8 := count_ternary_mono s t
  have h9 := count_lit2_mono '&' s t
  have h10 := count_lit2_mono '|' s t
  omega

/-- C10: `analyzeFile` is total at its interface — a failed read (modelled
as `Sum.inl msg`, the `catch` branch) yields a result whose only issue is a
single error-type issue with message `Could not read file: msg`, with every
pattern count, the function list, the recommendations and the complexity at
their initial zero/empty values, and leaves the shared regex state
untouched. -/
theorem analyzeFile_read_failure (file m : List Char) (st : Nat) :
    analyzeFile file (Sum.inl m) st =
      ({ file := file, functions := [], patterns := ⟨0, 0, 0, 0, 0, 0, 0⟩,
         issues := [⟨IssueType.error, readErrMsg m, none⟩],
         recommendations := [], complexity := 0 }, st) := rfl

end S2P
